import Mathlib

/-!
Verification development for the SPOS repository: shallow embeddings of the
two-pass assembler (`first.cpp`), the two-pass macroprocessor and the page
replacement simulator (`fourth(page replacement).cpp`), and the CPU scheduling
simulator (`third(CPU SCHEDULING).cpp`), together with theorems about them.

Machine integers of the C++ sources (`int`) are modelled as `Int` (with an
explicit two's-complement reduction modulo 2^32 where the code formats a value
in hexadecimal); `std::string` is modelled as `String`; `std::map` is modelled
as an association list kept sorted by key, so that iteration order matches the
C++ in-order traversal; `std::vector` and `std::queue` are modelled as `List`.
-/

set_option maxRecDepth 100000

/-! ## Shared string helpers -/

/-- The single-quote character (ASCII 39), used to build the literal strings of
the sample programs. -/
def quoteC : Char := Char.ofNat 39

/-- The single-quote character as a one-character string. -/
def quoteS : String := ⟨[quoteC]⟩

/-- Uppercase hexadecimal digit for a value `0 ≤ n < 16`. -/
def hexDigit (n : Nat) : Char :=
  if n < 10 then Char.ofNat (48 + n) else Char.ofNat (55 + n)

/-- Most-significant-first hexadecimal digits of `n`, with explicit fuel so the
definition is structural (the fuel `16` is enough for any value below `16^16`,
and every value we format came from a 32-bit reduction). -/
def hexDigitsAux : Nat → Nat → List Char
  | 0, _ => []
  | fuel + 1, n => if n = 0 then [] else hexDigitsAux fuel (n / 16) ++ [hexDigit (n % 16)]

/-- Pads the character list `l` on the left with `c` up to width `w`
(equivalent to `setw`/`setfill` of the C++ `toHex`: no truncation). -/
def leftPad (c : Char) (w : Nat) (l : List Char) : List Char :=
  List.replicate (w - l.length) c ++ l

/-- Uppercase hexadecimal rendering of a natural number, zero-padded to
`pad` characters (one digit minimum, like `std::hex` printing). -/
def toHexNat (n : Nat) (pad : Nat) : String :=
  ⟨leftPad '0' pad (if n = 0 then ['0'] else hexDigitsAux 16 n)⟩

/-- `toHex` of `first.cpp`: formats a C++ `int` in uppercase hexadecimal with
zero padding.  A negative value prints its 32-bit two's-complement pattern,
hence the reduction modulo 2^32. -/
def toHexI (v : Int) (pad : Nat) : String :=
  toHexNat ((v % (4294967296 : Int)).toNat) pad

/-- Replaces the first occurrence of `pat` in `s` by `rep`; the identity when
`pat` does not occur (mirrors one `find`/`replace` step on `std::string`). -/
def replaceFirstCs : List Char → List Char → List Char → List Char
  | [], pat, rep => if pat = [] then rep else []
  | c :: rest, pat, rep =>
    if pat.isPrefixOf (c :: rest) then rep ++ (c :: rest).drop pat.length
    else c :: replaceFirstCs rest pat rep

/-- String version of `replaceFirstCs`. -/
def replaceFirst (s pat rep : String) : String :=
  ⟨replaceFirstCs s.data pat.data rep.data⟩

/-- Replaces every (left-to-right, non-overlapping) occurrence of `pat` by
`rep`; fuel-based so the definition is structural.  This is the behaviour the
specification ascribes to the macroprocessor's parameter substitution and is
kept for comparison with the code's single-replacement behaviour. -/
def replaceAllFuel : Nat → List Char → List Char → List Char → List Char
  | 0, s, _, _ => s
  | _ + 1, [], _, _ => []
  | fuel + 1, c :: rest, pat, rep =>
    if pat ≠ [] ∧ pat.isPrefixOf (c :: rest) then
      rep ++ replaceAllFuel fuel ((c :: rest).drop pat.length) pat rep
    else c :: replaceAllFuel fuel rest pat rep

/-- String version of `replaceAllFuel` with sufficient fuel. -/
def replaceAllStr (s pat rep : String) : String :=
  ⟨replaceAllFuel s.data.length s.data pat.data rep.data⟩

/-- Whether `pat` occurs as a contiguous substring of `s`. -/
def containsSubCs : List Char → List Char → Bool
  | [], pat => decide (pat = [])
  | c :: rest, pat => pat.isPrefixOf (c :: rest) || containsSubCs rest pat

/-- String version of `containsSubCs`. -/
def containsSub (s pat : String) : Bool := containsSubCs s.data pat.data

/-- Whether the first character of `s` is `c` (models `rfind(c, 0) == 0` for a
one-character pattern). -/
def startsWith1 (s : String) (c : Char) : Bool :=
  match s.data with
  | [] => false
  | d :: _ => d = c

/-! ## Sorted association lists: the model of `std::map<string, _>`

`insertS` keeps the list sorted by key and overwrites an existing binding,
exactly like `operator[]` assignment on a `std::map`; iterating the list front
to back is the map's in-order traversal. -/

/-- Lexicographic (byte-wise) strict order on character lists: the comparison
`std::string::operator<` performs. -/
def ltCs : List Char → List Char → Bool
  | [], [] => false
  | [], _ :: _ => true
  | _ :: _, [] => false
  | c :: cs, d :: ds =>
    if c.toNat < d.toNat then true
    else if d.toNat < c.toNat then false
    else ltCs cs ds

/-- String version of `ltCs`. -/
def ltStr (a b : String) : Bool := ltCs a.data b.data

/-- Insert-or-overwrite into a key-sorted association list. -/
def insertS {α : Type} : List (String × α) → String → α → List (String × α)
  | [], k, v => [(k, v)]
  | (k', v') :: rest, k, v =>
    if ltStr k k' then (k, v) :: (k', v') :: rest
    else if k = k' then (k, v) :: rest
    else (k', v') :: insertS rest k v

/-- Lookup in an association list. -/
def lookupS {α : Type} : List (String × α) → String → Option α
  | [], _ => none
  | (k, v) :: rest, key => if key = k then some v else lookupS rest key

/-! # Assembler (`first.cpp`) -/

namespace Asm

/-- One source line, as the triple the C++ `main` hard-codes. -/
structure SrcLine where
  label : String
  opcode : String
  operand : String
deriving DecidableEq

/-- `IntermediateLine` of `first.cpp`. -/
structure IntermediateLine where
  location_counter : String
  label : String
  opcode : String
  operand : String
deriving DecidableEq

/-- `OPTAB`: mnemonic → (opcode hex, length). -/
def OPTAB : List (String × String × Nat) :=
  [("LDA", "00", 3), ("STA", "0C", 3), ("ADD", "18", 3),
   ("JMP", "30", 3), ("JLT", "38", 3), ("SUB", "1C", 3)]

/-- `OPTAB.count`/`OPTAB[...]` combined: lookup of a mnemonic. -/
def lookupOp (op : String) : Option (String × Nat) := lookupS OPTAB op

/-- Decimal digit value of a character, if any. -/
def decVal (c : Char) : Option Nat :=
  if 48 ≤ c.toNat ∧ c.toNat ≤ 57 then some (c.toNat - 48) else none

/-- Hexadecimal digit value of a character, if any. -/
def hexVal (c : Char) : Option Nat :=
  if 48 ≤ c.toNat ∧ c.toNat ≤ 57 then some (c.toNat - 48)
  else if 65 ≤ c.toNat ∧ c.toNat ≤ 70 then some (c.toNat - 55)
  else if 97 ≤ c.toNat ∧ c.toNat ≤ 102 then some (c.toNat - 87)
  else none

/-- Accumulates the leading digits of a character list in the given base
(the digit-consuming loop of `stoi`, stopping at the first non-digit). -/
def parseDigits (dv : Char → Option Nat) (base : Nat) : List Char → Nat → Nat
  | [], acc => acc
  | c :: rest, acc =>
    match dv c with
    | some d => parseDigits dv base rest (acc * base + d)
    | none => acc

/-- `stoi(s)` (base 10) on the well-formed operands the assembler sees: an
optional sign followed by leading decimal digits. -/
def stoiDec (s : String) : Int :=
  match s.data with
  | '-' :: rest => -(parseDigits decVal 10 rest 0 : Int)
  | '+' :: rest => (parseDigits decVal 10 rest 0 : Int)
  | l => (parseDigits decVal 10 l 0 : Int)

/-- `stoi(s, nullptr, 16)` on the well-formed operands the assembler sees. -/
def stoiHex (s : String) : Int :=
  match s.data with
  | '-' :: rest => -(parseDigits hexVal 16 rest 0 : Int)
  | '+' :: rest => (parseDigits hexVal 16 rest 0 : Int)
  | l => (parseDigits hexVal 16 l 0 : Int)

/-- Uppercases a string character-wise (`std::transform` with `::toupper`). -/
def upperStr (s : String) : String := ⟨s.data.map Char.toUpper⟩

/-- `hexToByteCode` of `first.cpp`: object bytes of a WORD/BYTE operand. -/
def hexToByteCode (operand : String) : String :=
  if operand = "" then ""
  else
    let u := upperStr operand
    if ['C', quoteC].isPrefixOf u.data then
      ⟨(u.data.drop 2).dropLast.foldr (fun c acc => (toHexNat c.toNat 2).data ++ acc) []⟩
    else if ['X', quoteC].isPrefixOf u.data then
      ⟨(u.data.drop 2).dropLast⟩
    else if (decVal (u.data.headD ' ')).isSome ∨
        (1 < u.data.length ∧ (u.data.headD ' ' = '-' ∨ u.data.headD ' ' = '+') ∧
          (decVal (u.data.getD 1 ' ')).isSome) then
      toHexI (stoiDec u) 6
    else ""

/-- The whole mutable state of `pass_one`: location counter, program metadata,
`SYMTAB`, `LITTAB` (value = (address, length)), the intermediate file, and the
diagnostics printed so far (`cerr`, modelled as a list of lines). -/
structure P1State where
  lc : Int
  start_address : Int
  program_name : String
  symtab : List (String × String)
  littab : List (String × String × Int)
  inter : List IntermediateLine
  diags : List String
deriving DecidableEq

/-- The initial pass-one state. -/
def p1Init : P1State := ⟨0, 0, "", [], [], [], []⟩

/-- The duplicate-label diagnostic of `pass_one`. -/
def dupMsg (label : String) (lc : Int) : String :=
  "Error: Duplicate label " ++ quoteS ++ label ++ quoteS ++ " at LC " ++ toHexI lc 4

/-- Length of a literal as decoded by `pass_one` (step 5): the text after `=`
is uppercased; `C'...'` counts characters, `X'...'` counts hex byte pairs, and
anything else defaults to a word of 3 bytes. -/
def litLen (operand : String) : Int :=
  let u := upperStr ⟨operand.data.drop 1⟩
  if ['C', quoteC].isPrefixOf u.data then (u.data.length : Int) - 3
  else if ['X', quoteC].isPrefixOf u.data then ((u.data.length : Int) - 3) / 2
  else 3

/-- Location-counter advance of one line (step 4 of `pass_one`). -/
def lcDelta (line : SrcLine) : Int :=
  match lookupOp line.opcode with
  | some (_, len) => (len : Int)
  | none =>
    if line.opcode = "WORD" then 3
    else if line.opcode = "RESW" then 3 * stoiDec line.operand
    else if line.opcode = "RESB" then stoiDec line.operand
    else if line.opcode = "BYTE" then
      let u := upperStr line.operand
      if ['C', quoteC].isPrefixOf u.data then (u.data.length : Int) - 3
      else if ['X', quoteC].isPrefixOf u.data then ((u.data.length : Int) - 3) / 2
      else 0
    else 0

/-- The `START` branch of `pass_one` (step 1). -/
def startStep (s : P1State) (line : SrcLine) : P1State :=
  let sa : Int := if line.operand = "" then 0 else stoiHex line.operand
  { s with program_name := line.label, start_address := sa, lc := sa,
           inter := s.inter ++ [⟨toHexI sa 4, line.label, line.opcode, line.operand⟩] }

/-- Steps 2–5 of the `pass_one` loop body for a non-`START` line: label
recording (with the duplicate warning and unconditional overwrite),
intermediate-file append (except for `END`), location-counter advance, and
literal registration.  The fields are written out separately; each input field
is read at the same point of the sequence as in the C++ body (the intermediate
line and the symbol address use the pre-advance `lc`). -/
def p1Step (s : P1State) (line : SrcLine) : P1State :=
  { lc := s.lc + lcDelta line,
    start_address := s.start_address,
    program_name := s.program_name,
    symtab :=
      if line.label ≠ "" then insertS s.symtab line.label (toHexI s.lc 4) else s.symtab,
    littab :=
      if startsWith1 line.operand '=' = true ∧ (lookupS s.littab line.operand).isNone then
        insertS s.littab line.operand (("", litLen line.operand))
      else s.littab,
    inter :=
      if line.opcode ≠ "END" then
        s.inter ++ [⟨toHexI s.lc 4, line.label, line.opcode, line.operand⟩]
      else s.inter,
    diags :=
      s.diags ++
        (if line.label ≠ "" ∧ (lookupS s.symtab line.label).isSome then
          [dupMsg line.label s.lc] else []) }

/-- The `END` handling (step 6): append the `END` intermediate line at the
current counter, then assign an address to every literal still lacking one, in
table iteration order, advancing the counter by each literal's length. -/
def endStep (s : P1State) (line : SrcLine) : P1State :=
  let s := { s with
    inter := s.inter ++ [(⟨toHexI s.lc 4, line.label, line.opcode, line.operand⟩ : IntermediateLine)] }
  let (littabRev, lc') := s.littab.foldl
    (fun (acc : List (String × String × Int) × Int) (entry : String × String × Int) =>
      if entry.2.1 = "" then
        ((entry.1, toHexI acc.2 4, entry.2.2) :: acc.1, acc.2 + entry.2.2)
      else (entry :: acc.1, acc.2))
    (([] : List (String × String × Int)), s.lc)
  { s with littab := littabRev.reverse, lc := lc' }

/-- The `pass_one` loop: `START` lines take their own branch and `continue`;
`END` runs the common body, then the literal pool, then breaks. -/
def passOneAux (s : P1State) : List SrcLine → P1State
  | [] => s
  | line :: rest =>
    if line.opcode = "START" then passOneAux (startStep s line) rest
    else if line.opcode = "END" then endStep (p1Step s line) line
    else passOneAux (p1Step s line) rest

/-- `pass_one` of `first.cpp` on a source program. -/
def pass_one (src : List SrcLine) : P1State := passOneAux p1Init src

/-- The program length `pass_one` returns: final counter minus start address. -/
def programLength (s : P1State) : Int := s.lc - s.start_address

/-! ### Pass II -/

/-- The mutable text-record state of `pass_two`, plus the emitted records and
the diagnostics printed so far. -/
structure P2State where
  records : List String
  tstart : String
  tcode : String
  diags : List String
deriving DecidableEq

/-- The unresolved-operand diagnostic of `pass_two`. -/
def warnMsg (operand : String) : String :=
  "Warning: Symbol/Literal " ++ quoteS ++ operand ++ quoteS ++ " not found. Using address 0000."

/-- A finished text record: `T`, start address, byte count, code. -/
def mkT (tstart tcode : String) : String :=
  "T" ++ tstart ++ toHexNat (tcode.length / 2) 2 ++ tcode

/-- The `RESW`/`RESB` branch of `pass_two`: emit the in-progress text record
if it is non-empty, then clear both the code buffer and the start address. -/
def flushT (st : P2State) : P2State :=
  { st with
    records := if st.tcode ≠ "" then st.records ++ [mkT st.tstart st.tcode] else st.records,
    tstart := "", tcode := "" }

/-- Operand resolution for a machine instruction (the `OPTAB` branch of
`pass_two`): symbol table first, then the literal table for `=`-operands, else
a zero address with a warning when the operand is non-empty. -/
def instrCode (symtab : List (String × String)) (littab : List (String × String × Int))
    (line : IntermediateLine) (op : String) : String × List String :=
  match lookupS symtab line.operand with
  | some a => (op ++ a, [])
  | none =>
    match if startsWith1 line.operand '=' then lookupS littab line.operand else none with
    | some entry => (op ++ entry.1, [])
    | none =>
      if line.operand ≠ "" then (op ++ "0000", [warnMsg line.operand])
      else (op ++ "0000", [])

/-- Step 3 of the `pass_two` loop: fold the line's object code into the
current text record, honouring the 60-character (30-byte) budget; an empty
object code leaves the state untouched. -/
def accumT (st : P2State) (lc : String) (oc : String) : P2State :=
  if oc = "" then st
  else
    let st := if st.tcode = "" then { st with tstart := lc } else st
    if 60 < st.tcode.length + oc.length then
      { st with records := st.records ++ [mkT st.tstart st.tcode], tstart := lc, tcode := oc }
    else { st with tcode := st.tcode ++ oc }

/-- The object code (and warnings) a line contributes, following the branch
order of the `pass_two` loop; reservation and program-boundary directives
contribute nothing. -/
def objectCodeOf (symtab : List (String × String)) (littab : List (String × String × Int))
    (line : IntermediateLine) : String × List String :=
  match lookupOp line.opcode with
  | some (op, _) => instrCode symtab littab line op
  | none =>
    if line.opcode = "WORD" ∨ line.opcode = "BYTE" then (hexToByteCode line.operand, [])
    else ("", [])

/-- One iteration of the `pass_two` loop. -/
def p2Step (symtab : List (String × String)) (littab : List (String × String × Int))
    (st : P2State) (line : IntermediateLine) : P2State :=
  match lookupOp line.opcode with
  | some (op, _) =>
    let r := instrCode symtab littab line op
    accumT { st with diags := st.diags ++ r.2 } line.location_counter r.1
  | none =>
    if line.opcode = "WORD" ∨ line.opcode = "BYTE" then
      accumT st line.location_counter (hexToByteCode line.operand)
    else if line.opcode = "RESW" ∨ line.opcode = "RESB" then flushT st
    else if line.opcode = "START" ∨ line.opcode = "END" then st
    else accumT st line.location_counter ""

/-- The `pass_two` loop over the intermediate file. -/
def passTwoAux (symtab : List (String × String)) (littab : List (String × String × Int))
    (st : P2State) : List IntermediateLine → P2State
  | [] => st
  | line :: rest => passTwoAux symtab littab (p2Step symtab littab st line) rest

/-- The program name padded or truncated to exactly six characters. -/
def padName (s : String) : String :=
  ⟨s.data.take 6 ++ List.replicate (6 - (s.data.take 6).length) ' '⟩

/-- `pass_two` of `first.cpp`: header record, the loop, the final text-record
flush, and the end record.  Returns (object program, diagnostics). -/
def pass_two (symtab : List (String × String)) (littab : List (String × String × Int))
    (inter : List IntermediateLine) (program_name start_addr : String)
    (program_len : Int) : List String × List String :=
  let header := "H" ++ padName program_name ++ start_addr ++ toHexI program_len 6
  let st := passTwoAux symtab littab ⟨[header], "", "", []⟩ inter
  let st := flushT st
  (st.records ++ ["E" ++ start_addr], st.diags)

/-- The literal operand `=C'EOF'` of the sample program. -/
def litEOF : String := ⟨['=', 'C', quoteC, 'E', 'O', 'F', quoteC]⟩

/-- The source program hard-coded in `main` of `first.cpp`. -/
def sampleSource : List SrcLine :=
  [⟨"COPY", "START", "1000"⟩,
   ⟨"LOOP", "LDA", "TEN"⟩,
   ⟨"", "ADD", "ONE"⟩,
   ⟨"", "JLT", "LOOP"⟩,
   ⟨"", "STA", "RESULT"⟩,
   ⟨"", "LDA", litEOF⟩,
   ⟨"TEN", "WORD", "10"⟩,
   ⟨"ONE", "RESW", "1"⟩,
   ⟨"RESULT", "RESB", "3"⟩,
   ⟨"", "END", ""⟩]

/-- The pass-one result on the sample program. -/
def sampleP1 : P1State := pass_one sampleSource

/-- The object program `main` produces: pass two run on pass one's outputs. -/
def sampleObjectProgram : List String :=
  (pass_two sampleP1.symtab sampleP1.littab sampleP1.inter sampleP1.program_name
    (toHexI sampleP1.start_address 4) (programLength sampleP1)).1

end Asm

/-! # Macroprocessor (second half of `fourth(page replacement).cpp`) -/

namespace Mac

/-- `ParsedLine` of the macroprocessor source. -/
structure ParsedLine where
  label : String
  opcode : String
  operand : String
deriving DecidableEq

/-- Whitespace-splitting worker for `tokenize` (`cur` holds the current token
reversed). -/
def tokenizeAux : List Char → List Char → List String
  | [], cur => if cur = [] then [] else [⟨cur.reverse⟩]
  | c :: rest, cur =>
    if c = ' ' ∨ c = '\t' ∨ c = '\n' ∨ c = '\r' then
      (if cur = [] then tokenizeAux rest [] else (⟨cur.reverse⟩ : String) :: tokenizeAux rest [])
    else tokenizeAux rest (c :: cur)

/-- `tokenize`: whitespace-separated tokens of a line (`ss >> token`). -/
def tokenize (line : String) : List String := tokenizeAux line.data []

/-- `parse_line`: assigns tokens to label/opcode/operand by token count. -/
def parse_line (tokens : List String) : ParsedLine :=
  match tokens with
  | [] => ⟨"", "", ""⟩
  | [t0] => ⟨"", t0, ""⟩
  | [t0, t1] => ⟨"", t0, t1⟩
  | t0 :: t1 :: t2 :: _ => ⟨t0, t1, t2⟩

/-- Comma-splitting worker for `extract_parameters`. -/
def splitCommaAux : List Char → List Char → List String
  | [], cur => [⟨cur.reverse⟩]
  | c :: rest, cur =>
    if c = ',' then (⟨cur.reverse⟩ : String) :: splitCommaAux rest []
    else splitCommaAux rest (c :: cur)

/-- `extract_parameters`: comma-separated parameters, empties dropped. -/
def extract_parameters (operand_str : String) : List String :=
  (splitCommaAux operand_str.data []).filter (fun p => p ≠ "")

/-- Applies an association list of substitutions to a line, replacing for each
pair — in list order, i.e. the `std::map` iteration order, sorted by key — the
FIRST occurrence of the key by the value (one `find`/`replace` per pair,
exactly as both substitution loops of the C++ source do). -/
def applySubst (subst : List (String × String)) (line : String) : String :=
  subst.foldl (fun l p => replaceFirst l p.1 p.2) line

/-- The formal-parameter map of an open definition: formal → `#i` by position,
stored sorted by key (`formal_to_placeholder`). -/
def buildFmap (formals : List String) : List (String × String) :=
  formals.enum.foldl (fun m p => insertS m p.2 ("#" ++ toString p.1)) []

/-- The actual-argument map of one call: `#i` → actual, stored sorted by key
(`actual_map`). -/
def buildAmap (actuals : List String) : List (String × String) :=
  actuals.enum.foldl (fun m p => insertS m ("#" ++ toString p.1) p.2) []

/-- The whole mutable state of the macroprocessor's Pass I.  `inDef` is the
C++ `in_macro` flag, `fmap` is `formal_to_placeholder`, `mnt` maps a macro
name to `(start_index, num_parameters)`, `mdt` is the Macro Definition Table
and `inter` the intermediate file. -/
structure M1State where
  inDef : Bool
  fmap : List (String × String)
  mnt : List (String × Nat × Nat)
  mdt : List String
  inter : List String
deriving DecidableEq

/-- The initial Pass I state. -/
def m1Init : M1State := ⟨false, [], [], [], []⟩

/-- One iteration of the Pass I loop of the macroprocessor. -/
def m1Step (s : M1State) (line : String) : M1State :=
  let tokens := tokenize line
  if tokens = [] then s
  else
    let p := parse_line tokens
    if p.opcode = "MACRO" then
      let formals := extract_parameters p.operand
      { inDef := true,
        fmap := buildFmap formals,
        mnt := insertS s.mnt p.label ((s.mdt.length, formals.length)),
        mdt := s.mdt ++ [line],
        inter := s.inter }
    else if p.opcode = "MEND" then
      { s with inDef := false, mdt := s.mdt ++ [line] }
    else if s.inDef then
      { s with mdt := s.mdt ++ [applySubst s.fmap line] }
    else
      { s with inter := s.inter ++ [line] }

/-- The Pass I loop. -/
def passOneM (s : M1State) : List String → M1State
  | [] => s
  | line :: rest => passOneM (m1Step s line) rest

/-- `pass_one` of the macroprocessor. -/
def pass_one (src : List String) : M1State := passOneM m1Init src

/-- The argument-count error marker of Pass II. -/
def argErr (opcode : String) : String :=
  "**ERROR: Incorrect number of arguments for macro " ++ opcode ++ "."

/-- The MDT-overrun error marker of Pass II. -/
def mdtErr (opcode : String) : String :=
  "**ERROR: MDT indexing error during expansion of " ++ opcode ++ "."

/-- The `MEND` test of the expansion loop: second token `MEND`, or a
single-token `MEND` line. -/
def isMendLine (mdLine : String) : Bool :=
  let t := tokenize mdLine
  (decide (1 < t.length) && (t.getD 1 "" == "MEND")) ||
    ((t.length == 1) && (t.headD "" == "MEND"))

/-- The `while (true)` expansion loop of Pass II, over the still-unread tail
of the MDT (`MDT[current_mdt_idx..]`): running off the end of the table emits
the overrun marker and aborts this call's expansion; a `MEND` line stops it
normally; any other line is emitted with placeholders substituted. -/
def expandLoop (amap : List (String × String)) (opcode : String) : List String → List String
  | [] => [mdtErr opcode]
  | mdLine :: rest =>
    if isMendLine mdLine then []
    else applySubst amap mdLine :: expandLoop amap opcode rest

/-- The lines Pass II emits for one intermediate line: an empty line is
skipped; a known macro name is expanded (after validating the argument count);
anything else passes through unchanged. -/
def m2Line (mnt : List (String × Nat × Nat)) (mdt : List String) (line : String) : List String :=
  let tokens := tokenize line
  if tokens = [] then []
  else
    let p := parse_line tokens
    match lookupS mnt p.opcode with
    | some ent =>
      let actuals := extract_parameters p.operand
      if actuals.length ≠ ent.2 then [argErr p.opcode]
      else expandLoop (buildAmap actuals) p.opcode (mdt.drop (ent.1 + 1))
    | none => [line]

/-- The Pass II loop over the intermediate file. -/
def passTwoM (mnt : List (String × Nat × Nat)) (mdt : List String)
    (out : List String) : List String → List String
  | [] => out
  | line :: rest => passTwoM mnt mdt (out ++ m2Line mnt mdt line) rest

/-- `pass_two` of the macroprocessor. -/
def pass_two (mnt : List (String × Nat × Nat)) (mdt : List String)
    (inter : List String) : List String :=
  passTwoM mnt mdt [] inter

/-- The source program hard-coded in `main` of the macroprocessor. -/
def sampleSourceM : List String :=
  ["MAIN\tSTART\t1000",
   "LOOP\tLOAD\tX",
   "CALC\tMACRO\t&A,&B",
   "&A\tADD\t&B",
   "\tSUB\t&B",
   "MEND",
   "\tSTORE\tY",
   "INIT\tMACRO\t&X,&Y,&Z",
   "&X\tLOAD\t&Y",
   "\tSTORE\t&Z",
   "MEND",
   "\tINIT\tTEMP,ONE,TWO",
   "\tCALC\tX,Y",
   "\tCALC\tY,Z",
   "X\tRESW\t1",
   "Y\tRESW\t1",
   "Z\tRESW\t1",
   "TEMP\tRESW\t1",
   "ONE\tWORD\t1",
   "TWO\tWORD\t2",
   "\tEND\t"]

/-- Pass I's result on the sample program. -/
def sampleM1 : M1State := pass_one sampleSourceM

end Mac

/-! # CPU scheduling (`third(CPU SCHEDULING).cpp`) -/

namespace Sched

/-- A process: `pid, at, bt, prio` of the C++ `Process` struct (`at` is a Lean
keyword, hence `arrival`/`burst`). -/
structure Proc where
  pid : Int
  arrival : Int
  burst : Int
  prio : Int
deriving DecidableEq

/-- Indexing with the C++ out-of-range behaviour irrelevant (all accesses the
algorithms make are in range): a default process. -/
def procGet (ps : List Proc) (i : Nat) : Proc := ps.getD i ⟨0, 0, 0, 0⟩

/-! ## Round Robin -/

/-- The whole mutable state of `roundRobin`: clock `t`, remaining times `rt`,
admission flags `vis`, the ready queue (front first), completion times, and
the count of finished processes. -/
structure RRState where
  t : Int
  rt : List Int
  vis : List Bool
  ready : List Nat
  ct : List Int
  done : Nat
deriving DecidableEq

/-- The admission scan (`for i … if (!vis[i] && p[i].at <= t)`), over a given
index list, ascending. -/
def rrAdmitAux (ps : List Proc) : List Nat → RRState → RRState
  | [], s => s
  | i :: is, s =>
    rrAdmitAux ps is
      (if s.vis.getD i false = false ∧ (procGet ps i).arrival ≤ s.t then
        { s with ready := s.ready ++ [i], vis := s.vis.set i true }
      else s)

/-- One full admission scan over all process indices. -/
def rrAdmit (ps : List Proc) (s : RRState) : RRState :=
  rrAdmitAux ps (List.range ps.length) s

/-- The indices an admission scan would enqueue, in scan order: the processes
not yet admitted whose arrival time has passed. -/
def newArrivals (ps : List Proc) (vis : List Bool) (t : Int) : List Nat :=
  (List.range ps.length).filter
    (fun j => vis.getD j false = false ∧ (procGet ps j).arrival ≤ t)

/-- The state right after the dispatched slice of `roundRobin` runs: the front
process `i` was popped (leaving `rest`), its remaining time dropped by
`exec = min q rt[i]`, and the clock advanced by `exec`. -/
def rrAfterSlice (q : Int) (s1 : RRState) (i : Nat) (rest : List Nat) :
    RRState :=
  { s1 with
    ready := rest,
    rt := s1.rt.set i (s1.rt.getD i 0 - min q (s1.rt.getD i 0)),
    t := s1.t + min q (s1.rt.getD i 0) }

/-- The dispatch part of one `while` iteration of `roundRobin`, after the
pre-dispatch admission produced a non-empty queue `i :: rest`: run a slice of
at most `q` (`rrAfterSlice`), admit processes that have arrived by the new
clock, then either complete the process or re-queue it at the back. -/
def rrRun (ps : List Proc) (q : Int) (s1 : RRState) (i : Nat) (rest : List Nat) : RRState :=
  let s3 := rrAdmit ps (rrAfterSlice q s1 i rest)
  if s3.rt.getD i 0 = 0 then { s3 with ct := s3.ct.set i s3.t, done := s3.done + 1 }
  else { s3 with ready := s3.ready ++ [i] }

/-- One full `while` iteration of `roundRobin`: admit, then either idle one
time unit (empty queue) or dispatch the queue front. -/
def rrIter (ps : List Proc) (q : Int) (s : RRState) : RRState :=
  let s1 := rrAdmit ps s
  match s1.ready with
  | [] => { s1 with t := s1.t + 1 }
  | i :: rest => rrRun ps q s1 i rest

/-- The initial Round Robin state. -/
def rrInit (ps : List Proc) : RRState :=
  ⟨0, ps.map (fun p => p.burst), ps.map (fun _ => false), [], ps.map (fun _ => 0), 0⟩

/-- A two-process workload for Round Robin with quantum 2: process 0 arrives
at time 0 with burst 5, process 1 arrives at time 1 — during process 0's first
slice `[0, 2)`. -/
def psRR : List Proc := [⟨1, 0, 5, 2⟩, ⟨2, 1, 3, 1⟩]

/-! ## Preemptive SJF -/

/-- The mutable state of `sjf`: clock, remaining times, completion times, and
the count of finished processes. -/
structure SjfState where
  t : Int
  rt : List Int
  ct : List Int
  done : Nat
deriving DecidableEq

/-- Remaining time of process `i`. -/
def rtGet (s : SjfState) (i : Nat) : Int := s.rt.getD i 0

/-- The `1e9` sentinel the selection loop of `sjf` initialises `mn` with. -/
def BIG : Int := 1000000000

/-- The selection scan of `sjf` over an index list: keeps the first process
(ascending index) with the strictly smallest remaining time among arrived,
unfinished processes whose remaining time beats the current minimum. -/
def sjfScan (ps : List Proc) (s : SjfState) : List Nat → Option Nat × Int → Option Nat × Int
  | [], acc => acc
  | i :: is, acc =>
    sjfScan ps s is
      (if (procGet ps i).arrival ≤ s.t ∧ 0 < rtGet s i ∧ rtGet s i < acc.2 then
        (some i, rtGet s i)
      else acc)

/-- The full selection scan of one `while` iteration of `sjf`. -/
def sjfSelect (ps : List Proc) (s : SjfState) : Option Nat × Int :=
  sjfScan ps s (List.range ps.length) (none, BIG)

/-- One `while` iteration of `sjf`: idle one unit when nothing is selectable,
else run the selected process for one unit, completing it if its remaining
time reaches zero. -/
def sjfStep (ps : List Proc) (s : SjfState) : SjfState :=
  match (sjfSelect ps s).1 with
  | none => { s with t := s.t + 1 }
  | some i =>
    if rtGet s i - 1 = 0 then
      ⟨s.t + 1, s.rt.set i (rtGet s i - 1), s.ct.set i (s.t + 1), s.done + 1⟩
    else
      ⟨s.t + 1, s.rt.set i (rtGet s i - 1), s.ct, s.done⟩

/-- `k` guarded iterations of the `while (done < n)` loop of `sjf`: the state
is frozen once every process is done (the loop has exited). -/
def sjfLoop (ps : List Proc) : Nat → SjfState → SjfState
  | 0, s => s
  | k + 1, s => if s.done < ps.length then sjfLoop ps k (sjfStep ps s) else s

/-- The initial `sjf` state (`rt[i] = bt[i]`). -/
def sjfInit (ps : List Proc) : SjfState :=
  ⟨0, ps.map (fun p => p.burst), ps.map (fun _ => 0), 0⟩

/-- The number of finished processes the `done` counter should show:
processes whose remaining time is zero but whose burst was positive (a
zero-burst process starts at zero remaining time without ever being counted
done). -/
def doneSpec (ps : List Proc) (s : SjfState) : Nat :=
  ((Finset.range ps.length).filter
    (fun i => rtGet s i = 0 ∧ 0 < (procGet ps i).burst)).card

/-- The invariant of the `sjf` loop: remaining times never exceed bursts, the
`done` counter counts exactly the finished positive-burst processes, and the
remaining-time vector keeps its length. -/
def SjfInv (ps : List Proc) (s : SjfState) : Prop :=
  (∀ i, i < ps.length → rtGet s i ≤ (procGet ps i).burst)
  ∧ s.done = doneSpec ps s
  ∧ s.rt.length = ps.length

/-- An upper bound on every arrival time: the sum of their non-negative
parts. -/
def maxA (ps : List Proc) : Int :=
  ((∑ i ∈ Finset.range ps.length, ((procGet ps i).arrival).toNat : Nat) : Int)

/-- The termination measure of the `sjf` loop: total remaining work plus the
distance from the clock to the last arrival. -/
def sjfMeasure (ps : List Proc) (s : SjfState) : Nat :=
  (∑ i ∈ Finset.range ps.length, (rtGet s i).toNat) + (maxA ps - s.t).toNat

/-- A single process with burst time exactly the selection sentinel `1e9`. -/
def psStuck : List Proc := [⟨1, 0, 1000000000, 0⟩]

end Sched

/-! # Page replacement (first half of `fourth(page replacement).cpp`) -/

namespace Page

/-! ## FIFO -/

/-- The mutable state of `fifo`: resident frames, the arrival queue, and the
fault counter. -/
structure FifoState where
  frames : List Int
  q : List Int
  faults : Nat

/-- The initial FIFO state. -/
def fifoInit : FifoState := ⟨[], [], 0⟩

/-- One reference under FIFO: a hit changes nothing; a miss fills a free frame
or evicts the front of the arrival queue (`std::replace` by value), and always
counts one fault. -/
def fifoStep (capacity : Nat) (s : FifoState) (p : Int) : FifoState :=
  if p ∈ s.frames then s
  else if s.frames.length < capacity then
    ⟨s.frames ++ [p], s.q ++ [p], s.faults + 1⟩
  else
    let victim := s.q.headD 0
    ⟨s.frames.map (fun x => if x = victim then p else x), s.q.tail ++ [p], s.faults + 1⟩

/-- The `fifo` loop over the reference string. -/
def fifoRun (capacity : Nat) (s : FifoState) : List Int → FifoState
  | [] => s
  | p :: rest => fifoRun capacity (fifoStep capacity s p) rest

/-- The number of references that are misses — referenced while not resident —
along the FIFO trace. -/
def fifoMisses (capacity : Nat) (s : FifoState) : List Int → Nat
  | [] => 0
  | p :: rest =>
    (if p ∈ s.frames then 0 else 1) + fifoMisses capacity (fifoStep capacity s p) rest

/-! ## LRU -/

/-- The mutable state of `lru`: frames, the last-use map (`unordered_map`
defaulting to 0), the clock, and the fault counter. -/
structure LruState where
  frames : List Int
  lastUsed : Int → Nat
  time : Nat
  faults : Nat

/-- The initial LRU state. -/
def lruInit : LruState := ⟨[], fun _ => 0, 0, 0⟩

/-- The victim scan of `lru`: the first frame (in frame order) with the
strictly smallest last-use time, starting from `frames[0]` and `INT_MAX`. -/
def lruVictimAux (lu : Int → Nat) : List Int → Int → Nat → Int
  | [], v, _ => v
  | f :: fs, v, mn =>
    if lu f < mn then lruVictimAux lu fs f (lu f) else lruVictimAux lu fs v mn

/-- One reference under LRU: the clock ticks, a miss fills or evicts the least
recently used frame and counts one fault, and the page's last-use time is
updated at the end either way. -/
def lruStep (capacity : Nat) (s : LruState) (p : Int) : LruState :=
  let time' := s.time + 1
  let lu' : Int → Nat := fun x => if x = p then time' else s.lastUsed x
  if p ∈ s.frames then ⟨s.frames, lu', time', s.faults⟩
  else if s.frames.length < capacity then ⟨s.frames ++ [p], lu', time', s.faults + 1⟩
  else
    let victim := lruVictimAux s.lastUsed s.frames (s.frames.headD 0) 2147483647
    ⟨s.frames.map (fun x => if x = victim then p else x), lu', time', s.faults + 1⟩

/-- The `lru` loop over the reference string. -/
def lruRun (capacity : Nat) (s : LruState) : List Int → LruState
  | [] => s
  | p :: rest => lruRun capacity (lruStep capacity s p) rest

/-- The number of references that are misses along the LRU trace. -/
def lruMisses (capacity : Nat) (s : LruState) : List Int → Nat
  | [] => 0
  | p :: rest =>
    (if p ∈ s.frames then 0 else 1) + lruMisses capacity (lruStep capacity s p) rest

/-! ## Optimal -/

/-- The mutable state of `optimal`: frames and the fault counter. -/
structure OptState where
  frames : List Int
  faults : Nat
deriving DecidableEq

/-- The initial Optimal state. -/
def optInit : OptState := ⟨[], 0⟩

/-- The victim scan of `optimal`, phrased over the future suffix of the
reference string: for frame `f`, `future.findIdx (· = f)` is the C++ `j`
shifted by `i + 1` (absent ↔ `j = pages.size()`); a frame with no future use
is evicted outright (`break`), else the strict-farthest-so-far frame wins,
with `farthest` starting at `i + 1`, i.e. relative index 1, and `victim`
starting at `-1`. -/
def optVictimAux (future : List Int) : List Int → Int → Nat → Int
  | [], victim, _ => victim
  | f :: fs, victim, farthest =>
    let j := future.findIdx (fun x => x = f)
    if j = future.length then f
    else if farthest < j + 1 then optVictimAux future fs f (j + 1)
    else optVictimAux future fs victim farthest

/-- One reference under Optimal, given the future references after it. -/
def optStep (capacity : Nat) (s : OptState) (p : Int) (future : List Int) : OptState :=
  if p ∈ s.frames then s
  else if s.frames.length < capacity then ⟨s.frames ++ [p], s.faults + 1⟩
  else
    let victim := optVictimAux future s.frames (-1) 1
    ⟨s.frames.map (fun x => if x = victim then p else x), s.faults + 1⟩

/-- The `optimal` loop over the reference string (each step sees the suffix
after the current reference as its future). -/
def optRun (capacity : Nat) (s : OptState) : List Int → OptState
  | [] => s
  | p :: rest => optRun capacity (optStep capacity s p rest) rest

/-- The number of references that are misses along the Optimal trace. -/
def optMisses (capacity : Nat) (s : OptState) : List Int → Nat
  | [] => 0
  | p :: rest =>
    (if p ∈ s.frames then 0 else 1) + optMisses capacity (optStep capacity s p rest) rest

end Page

/-- The substitution the specification describes for macroprocessor Pass I:
EVERY exact textual occurrence of each formal parameter replaced by its
placeholder.  Stated from the spec's words, for comparison with the code's
`Mac.applySubst`, which replaces only the first occurrence per parameter. -/
def specSubstAll (subst : List (String × String)) (line : String) : String :=
  subst.foldl (fun l p => replaceAllStr l p.1 p.2) line

/-! # Claim theorems -/

/-! ## Small `List.set`/`List.getD` helpers -/

/-- `getD` after `set` at the same (in-bounds) index. -/
theorem getD_set_same {α : Type} (l : List α) (i : Nat) (a d : α) (h : i < l.length) :
    (l.set i a).getD i d = a := by
  induction l generalizing i with
  | nil => simp at h
  | cons x xs ih =>
    cases i with
    | zero => simp [List.set, List.getD]
    | succ j =>
      simp only [List.set, List.getD_cons_succ]
      exact ih j (by simpa using h)

/-- `getD` after `set` at a different index. -/
theorem getD_set_other {α : Type} (l : List α) (i j : Nat) (a d : α) (h : i ≠ j) :
    (l.set i a).getD j d = l.getD j d := by
  induction l generalizing i j with
  | nil => simp [List.set]
  | cons x xs ih =>
    cases i with
    | zero =>
      cases j with
      | zero => exact absurd rfl h
      | succ j' => simp [List.set]
    | succ i' =>
      cases j with
      | zero => simp [List.set]
      | succ j' =>
        simp only [List.set, List.getD_cons_succ]
        exact ih i' j' (fun hc => h (by simp [hc]))

/-- `ltCs` is irreflexive. -/
theorem ltCs_irrefl (l : List Char) : ltCs l l = false := by
  induction l with
  | nil => rfl
  | cons c cs ih => simp [ltCs, ih]

/-- `ltStr` is irreflexive. -/
theorem ltStr_irrefl (s : String) : ltStr s s = false := ltCs_irrefl s.data

/-- Looking up the key just inserted finds the new value. -/
theorem lookupS_insertS_same {α : Type} (m : List (String × α)) (k : String) (v : α) :
    lookupS (insertS m k v) k = some v := by
  induction m with
  | nil => simp [insertS, lookupS]
  | cons p rest ih =>
    obtain ⟨k', v'⟩ := p
    by_cases h1 : ltStr k k' = true
    · simp [insertS, h1, lookupS]
    · by_cases h2 : k = k'
      · simp [insertS, h1, h2, lookupS, ltStr_irrefl]
      · simp [insertS, h1, h2, lookupS, ih]

/-- Claim C1: on the assembler's fixed sample program, after Pass I the symbol
table maps LOOP to 1000, TEN to 100F, ONE to 1012 and RESULT to 1015; the
literal =C'EOF' is assigned address 1018 with length 3; and the program length
reported in the header record emitted by Pass II is 0x1B (27), i.e. the header
is `HCOPY  1000` followed by the length field `00001B`. -/
theorem asm_sample_tables :
    lookupS Asm.sampleP1.symtab ("LOOP") = some ("1000")
    ∧ lookupS Asm.sampleP1.symtab ("TEN") = some ("100F")
    ∧ lookupS Asm.sampleP1.symtab ("ONE") = some ("1012")
    ∧ lookupS Asm.sampleP1.symtab ("RESULT") = some ("1015")
    ∧ lookupS Asm.sampleP1.littab Asm.litEOF = some (("1018", 3))
    ∧ Asm.programLength Asm.sampleP1 = 27
    ∧ Asm.sampleObjectProgram.headD "" = "H" ++ "COPY  " ++ "1000" ++ "00001B" := by
  decide

/-- Claim C9: the object program of the sample run consists of exactly the
header, one text record for the instruction/WORD lines, and the end record;
the literal pool's data bytes `454F46` (which is what `hexToByteCode` yields
for the literal `C'EOF'`) appear in no record, because Pass I's intermediate
file — listed in full below — carries no line for the pool at 1018 beyond the
`END` line, and `END` lines are skipped by Pass II. -/
theorem object_program_omits_literal_pool :
    Asm.sampleP1.inter =
      [⟨"1000", "COPY", "START", "1000"⟩,
       ⟨"1000", "LOOP", "LDA", "TEN"⟩,
       ⟨"1003", "", "ADD", "ONE"⟩,
       ⟨"1006", "", "JLT", "LOOP"⟩,
       ⟨"1009", "", "STA", "RESULT"⟩,
       ⟨"100C", "", "LDA", Asm.litEOF⟩,
       ⟨"100F", "TEN", "WORD", "10"⟩,
       ⟨"1012", "ONE", "RESW", "1"⟩,
       ⟨"1015", "RESULT", "RESB", "3"⟩,
       ⟨"1018", "", "END", ""⟩]
    ∧ Asm.sampleObjectProgram =
      ["HCOPY  100000001B", "T10001200100F1810123810000C101500101800000A", "E1000"]
    ∧ Asm.hexToByteCode ⟨['C', quoteC, 'E', 'O', 'F', quoteC]⟩ = "454F46"
    ∧ Asm.sampleObjectProgram.all (fun r => !(containsSub r ("454F46"))) = true := by
  decide

/-- Claim C4: expanding the call `CALC X,Y` in Pass II against the sample
`CALC` definition substitutes X for the first formal and Y for the second,
emitting exactly the two lines `X ADD Y` and `SUB Y` (tab-separated, as in the
source); the full Pass II output shows those two lines in place. -/
theorem expand_call_sample :
    Mac.m2Line Mac.sampleM1.mnt Mac.sampleM1.mdt ("\tCALC\tX,Y") = ["X\tADD\tY", "\tSUB\tY"]
    ∧ Mac.pass_two Mac.sampleM1.mnt Mac.sampleM1.mdt Mac.sampleM1.inter =
      ["MAIN\tSTART\t1000", "LOOP\tLOAD\tX", "\tSTORE\tY", "TEMP\tLOAD\tONE", "\tSTORE\tTWO",
       "X\tADD\tY", "\tSUB\tY", "Y\tADD\tZ", "\tSUB\tZ", "X\tRESW\t1", "Y\tRESW\t1",
       "Z\tRESW\t1", "TEMP\tRESW\t1", "ONE\tWORD\t1", "TWO\tWORD\t2", "\tEND\t"] := by
  decide

/-- Claim C3 (counterexample): Pass I does NOT replace every textual
occurrence of a formal parameter.  For the definition `DUP MACRO &A` with body
line `&A ADD &A`, the line appended to the MDT is `#0 ADD &A` — only the first
occurrence of `&A` is replaced — whereas the claim's all-occurrences
substitution of the recorded parameter map `&A → #0` yields `#0 ADD #0`. -/
theorem mdt_subst_counterexample :
    (Mac.pass_one ["DUP\tMACRO\t&A", "&A\tADD\t&A", "MEND"]).fmap = [("&A", "#0")]
    ∧ (Mac.pass_one ["DUP\tMACRO\t&A", "&A\tADD\t&A", "MEND"]).mdt.getD 1 "" = "#0\tADD\t&A"
    ∧ specSubstAll [("&A", "#0")] ("&A\tADD\t&A") = "#0\tADD\t#0"
    ∧ ("#0\tADD\t&A" : String) ≠ "#0\tADD\t#0" := by
  decide

/-- Claim C3 (amended): in macroprocessor Pass I, for every tokenizable line
processed while a definition is open (and which is not itself a MACRO or MEND
line), the line appended to the Macro Definition Table is the source line with,
for each formal parameter taken in the parameter map's sorted order, the FIRST
textual occurrence of that parameter in the line as rewritten so far replaced
by its placeholder (`Mac.applySubst`), and the intermediate output is left
alone; every tokenizable non-MACRO/MEND line processed while no definition is
open is appended to the intermediate output unchanged, and the MDT is left
alone. -/
theorem mdt_subst_first_occurrence (s : Mac.M1State) (line : String)
    (hTok : Mac.tokenize line ≠ [])
    (hMac : (Mac.parse_line (Mac.tokenize line)).opcode ≠ "MACRO")
    (hMend : (Mac.parse_line (Mac.tokenize line)).opcode ≠ "MEND") :
    (s.inDef = true →
      (Mac.m1Step s line).mdt = s.mdt ++ [Mac.applySubst s.fmap line]
      ∧ (Mac.m1Step s line).inter = s.inter)
    ∧ (s.inDef = false →
      (Mac.m1Step s line).inter = s.inter ++ [line]
      ∧ (Mac.m1Step s line).mdt = s.mdt) := by
  constructor <;> intro h <;> simp [Mac.m1Step, hTok, hMac, hMend, h]

/-- Concrete instantiation of `mdt_subst_first_occurrence`: an open-definition
state with parameter map `&A → #0` processing the body line `&A SUB &A`, and a
closed-definition state processing the same line. -/
theorem mdt_subst_first_occurrence_witness :
    ((⟨true, [("&A", "#0")], [], ["H"], []⟩ : Mac.M1State).inDef = true →
      (Mac.m1Step ⟨true, [("&A", "#0")], [], ["H"], []⟩ ("&A\tSUB\t&A")).mdt =
        ["H"] ++ [Mac.applySubst [("&A", "#0")] ("&A\tSUB\t&A")]
      ∧ (Mac.m1Step ⟨true, [("&A", "#0")], [], ["H"], []⟩ ("&A\tSUB\t&A")).inter = [])
    ∧ ((⟨true, [("&A", "#0")], [], ["H"], []⟩ : Mac.M1State).inDef = false →
      (Mac.m1Step ⟨true, [("&A", "#0")], [], ["H"], []⟩ ("&A\tSUB\t&A")).inter =
        [] ++ [("&A\tSUB\t&A")]
      ∧ (Mac.m1Step ⟨true, [("&A", "#0")], [], ["H"], []⟩ ("&A\tSUB\t&A")).mdt = ["H"]) := by
  exact mdt_subst_first_occurrence ⟨true, [("&A", "#0")], [], ["H"], []⟩ ("&A\tSUB\t&A")
    (by decide) (by decide) (by decide)

/-- When a line's object code is non-empty, the Pass II step is exactly the
text-record accumulation of that code (plus any resolution warnings). -/
theorem p2Step_objectCode (sy : List (String × String)) (lt : List (String × String × Int))
    (st : Asm.P2State) (line : Asm.IntermediateLine)
    (h : (Asm.objectCodeOf sy lt line).1 ≠ "") :
    Asm.p2Step sy lt st line =
      Asm.accumT { st with diags := st.diags ++ (Asm.objectCodeOf sy lt line).2 }
        line.location_counter (Asm.objectCodeOf sy lt line).1 := by
  unfold Asm.p2Step Asm.objectCodeOf
  unfold Asm.objectCodeOf at h
  cases hop : Asm.lookupOp line.opcode with
  | some pr => rfl
  | none =>
    rw [hop] at h
    by_cases hw : line.opcode = "WORD" ∨ line.opcode = "BYTE"
    · simp [hw]
    · simp [hw] at h

/-- Claim C5: in assembler Pass II, (1) `RESW`/`RESB` lines generate no object
bytes and close and emit the in-progress text record exactly when it is
non-empty (`Asm.flushT`); (2) `START`/`END` lines leave the state — records
and text buffer — completely unchanged; (3) whenever a line carries non-empty
object bytes whose addition would push the accumulated record over the
60-character (30-byte) budget, the current record is closed and emitted and a
new record is started whose start address is that line's location counter and
whose code is exactly that line's bytes. -/
theorem text_record_rules :
    (∀ (sy : List (String × String)) (lt : List (String × String × Int))
       (st : Asm.P2State) (line : Asm.IntermediateLine),
       line.opcode = "RESW" ∨ line.opcode = "RESB" →
       Asm.p2Step sy lt st line = Asm.flushT st)
    ∧ (∀ (sy : List (String × String)) (lt : List (String × String × Int))
       (st : Asm.P2State) (line : Asm.IntermediateLine),
       line.opcode = "START" ∨ line.opcode = "END" →
       Asm.p2Step sy lt st line = st)
    ∧ (∀ (sy : List (String × String)) (lt : List (String × String × Int))
       (st : Asm.P2State) (line : Asm.IntermediateLine),
       (Asm.objectCodeOf sy lt line).1 ≠ "" →
       st.tcode ≠ "" →
       60 < st.tcode.length + (Asm.objectCodeOf sy lt line).1.length →
       Asm.p2Step sy lt st line =
         ⟨st.records ++ [Asm.mkT st.tstart st.tcode], line.location_counter,
          (Asm.objectCodeOf sy lt line).1,
          st.diags ++ (Asm.objectCodeOf sy lt line).2⟩) := by
  refine ⟨?_, ?_, ?_⟩
  · rintro sy lt st ⟨lc, lab, op, opnd⟩ (rfl | rfl) <;> rfl
  · rintro sy lt st ⟨lc, lab, op, opnd⟩ (rfl | rfl) <;> rfl
  · intro sy lt st line h1 h2 h3
    rw [p2Step_objectCode sy lt st line h1]
    unfold Asm.accumT
    rw [if_neg h1]
    simp only [h2, if_neg, reduceIte]
    rw [if_pos (by simpa using h3)]

/-- Concrete instantiation of `text_record_rules`: a `RESW` line flushing a
non-empty record, a `START` line leaving the state alone, and an `LDA` line
whose 6 object-code characters overflow a 60-character record. -/
theorem text_record_rules_witness :
    Asm.p2Step [] [] ⟨["H"], "1000", "00100F", []⟩ ⟨"1012", "ONE", "RESW", "1"⟩ =
      Asm.flushT ⟨["H"], "1000", "00100F", []⟩
    ∧ Asm.p2Step [] [] ⟨["H"], "", "", []⟩ ⟨"1000", "COPY", "START", "1000"⟩ =
      ⟨["H"], "", "", []⟩
    ∧ Asm.p2Step [("X", "2000")] []
        ⟨[], "1000", "001002001002001002001002001002001002001002001002001002001002", []⟩
        ⟨"3000", "", "LDA", "X"⟩ =
      ⟨[] ++ [Asm.mkT "1000"
          ("001002001002001002001002001002001002001002001002001002001002")],
       "3000",
       (Asm.objectCodeOf [("X", "2000")] [] ⟨"3000", "", "LDA", "X"⟩).1,
       [] ++ (Asm.objectCodeOf [("X", "2000")] [] ⟨"3000", "", "LDA", "X"⟩).2⟩ := by
  refine ⟨?_, ?_, ?_⟩
  · exact text_record_rules.1 [] [] ⟨["H"], "1000", "00100F", []⟩
      ⟨"1012", "ONE", "RESW", "1"⟩ (Or.inl rfl)
  · exact text_record_rules.2.1 [] [] ⟨["H"], "", "", []⟩
      ⟨"1000", "COPY", "START", "1000"⟩ (Or.inl rfl)
  · exact text_record_rules.2.2 [("X", "2000")] []
      ⟨[], "1000", "001002001002001002001002001002001002001002001002001002001002", []⟩
      ⟨"3000", "", "LDA", "X"⟩ (by decide) (by decide) (by decide)

/-- Claim C7: in assembler Pass I, a line with a non-empty label (`START`
lines excepted: they take the `START` branch and record no symbol) has its
label bound in the symbol table to the current location counter whether or not
it was already present — a duplicate additionally emits a warning, while a
first-time label emits nothing — so a previously stored address is discarded.
The first conjunct records that the loop really routes such a line through
this step. -/
theorem duplicate_label_overwrite (s : Asm.P1State) (line : Asm.SrcLine)
    (rest : List Asm.SrcLine) (hLab : line.label ≠ "") (hStart : line.opcode ≠ "START") :
    Asm.passOneAux s (line :: rest) =
      (if line.opcode = "END" then Asm.endStep (Asm.p1Step s line) line
       else Asm.passOneAux (Asm.p1Step s line) rest)
    ∧ lookupS (Asm.p1Step s line).symtab line.label = some (toHexI s.lc 4)
    ∧ ((lookupS s.symtab line.label).isSome →
        (Asm.p1Step s line).diags = s.diags ++ [Asm.dupMsg line.label s.lc])
    ∧ ((lookupS s.symtab line.label).isSome = false →
        (Asm.p1Step s line).diags = s.diags) := by
  refine ⟨?_, ?_, ?_, ?_⟩
  · simp only [Asm.passOneAux, hStart, if_neg, reduceIte]
  · simp [Asm.p1Step, hLab, lookupS_insertS_same]
  · intro h; simp [Asm.p1Step, hLab, h]
  · intro h; simp [Asm.p1Step, hLab, h]

/-- Concrete instantiation of `duplicate_label_overwrite`: `LOOP` is already
bound to `0500` and is rebound to the current counter 0x1000, with the
duplicate warning emitted. -/
theorem duplicate_label_overwrite_witness :
    Asm.passOneAux ⟨4096, 4096, "COPY", [("LOOP", "0500")], [], [], []⟩
        (⟨"LOOP", "LDA", "TEN"⟩ :: []) =
      (if ("LDA" : String) = "END" then
        Asm.endStep (Asm.p1Step ⟨4096, 4096, "COPY", [("LOOP", "0500")], [], [], []⟩
          ⟨"LOOP", "LDA", "TEN"⟩) ⟨"LOOP", "LDA", "TEN"⟩
       else Asm.passOneAux (Asm.p1Step ⟨4096, 4096, "COPY", [("LOOP", "0500")], [], [], []⟩
          ⟨"LOOP", "LDA", "TEN"⟩) [])
    ∧ lookupS (Asm.p1Step ⟨4096, 4096, "COPY", [("LOOP", "0500")], [], [], []⟩
        ⟨"LOOP", "LDA", "TEN"⟩).symtab ("LOOP") = some (toHexI 4096 4)
    ∧ ((lookupS [("LOOP", "0500")] ("LOOP")).isSome →
        (Asm.p1Step ⟨4096, 4096, "COPY", [("LOOP", "0500")], [], [], []⟩
          ⟨"LOOP", "LDA", "TEN"⟩).diags = [] ++ [Asm.dupMsg ("LOOP") 4096])
    ∧ ((lookupS [("LOOP", "0500")] ("LOOP")).isSome = false →
        (Asm.p1Step ⟨4096, 4096, "COPY", [("LOOP", "0500")], [], [], []⟩
          ⟨"LOOP", "LDA", "TEN"⟩).diags = []) := by
  exact duplicate_label_overwrite ⟨4096, 4096, "COPY", [("LOOP", "0500")], [], [], []⟩
    ⟨"LOOP", "LDA", "TEN"⟩ [] (by decide) (by decide)

/-- Claim C6: each detected error condition emits its diagnostic and the
enclosing pass continues with the next line — none aborts.  (1) A duplicate
label in assembler Pass I appends exactly the duplicate warning to the
diagnostics, and the pass on `line :: rest` is the pass on `rest` from the
stepped state.  (2) An unresolved operand of a machine instruction in Pass II
resolves to the default address `0000` with exactly the not-found warning, and
the pass continues likewise.  (3) A macro call whose actual-argument count
differs from the recorded formal count emits exactly the inline argument-count
marker, skips the expansion, and Pass II continues with the remaining lines.
(4) The expansion loop, upon running past the end of the MDT, emits exactly
the indexing-error marker and stops that call's expansion. -/
theorem errors_are_nonfatal :
    (∀ (s : Asm.P1State) (line : Asm.SrcLine) (rest : List Asm.SrcLine),
      line.opcode ≠ "START" → line.opcode ≠ "END" → line.label ≠ "" →
      (lookupS s.symtab line.label).isSome →
      (Asm.p1Step s line).diags = s.diags ++ [Asm.dupMsg line.label s.lc]
      ∧ Asm.passOneAux s (line :: rest) = Asm.passOneAux (Asm.p1Step s line) rest)
    ∧ (∀ (sy : List (String × String)) (lt : List (String × String × Int))
        (st : Asm.P2State) (line : Asm.IntermediateLine) (rest : List Asm.IntermediateLine)
        (pr : String × Nat),
      Asm.lookupOp line.opcode = some pr →
      lookupS sy line.operand = none →
      (if startsWith1 line.operand '=' then lookupS lt line.operand else none) = none →
      line.operand ≠ "" →
      Asm.instrCode sy lt line pr.1 = (pr.1 ++ "0000", [Asm.warnMsg line.operand])
      ∧ Asm.passTwoAux sy lt st (line :: rest) =
          Asm.passTwoAux sy lt (Asm.p2Step sy lt st line) rest)
    ∧ (∀ (mnt : List (String × Nat × Nat)) (mdt : List String) (out : List String)
        (line : String) (rest : List String) (ent : Nat × Nat),
      Mac.tokenize line ≠ [] →
      lookupS mnt (Mac.parse_line (Mac.tokenize line)).opcode = some ent →
      (Mac.extract_parameters (Mac.parse_line (Mac.tokenize line)).operand).length ≠ ent.2 →
      Mac.m2Line mnt mdt line = [Mac.argErr (Mac.parse_line (Mac.tokenize line)).opcode]
      ∧ Mac.passTwoM mnt mdt out (line :: rest) =
          Mac.passTwoM mnt mdt
            (out ++ [Mac.argErr (Mac.parse_line (Mac.tokenize line)).opcode]) rest)
    ∧ (∀ (amap : List (String × String)) (opcode : String) (mdt : List String) (idx : Nat),
      mdt.length ≤ idx →
      Mac.expandLoop amap opcode (mdt.drop idx) = [Mac.mdtErr opcode]) := by
  refine ⟨?_, ?_, ?_, ?_⟩
  · intro s line rest hStart hEnd hLab hDup
    refine ⟨by simp [Asm.p1Step, hLab, hDup], ?_⟩
    simp only [Asm.passOneAux, hStart, hEnd, if_neg, reduceIte]
  · intro sy lt st line rest pr hop hsy hlt hne
    refine ⟨?_, rfl⟩
    unfold Asm.instrCode
    rw [hsy, hlt, if_pos hne]
  · intro mnt mdt out line rest ent hTok hMnt hCount
    have hline : Mac.m2Line mnt mdt line =
        [Mac.argErr (Mac.parse_line (Mac.tokenize line)).opcode] := by
      simp [Mac.m2Line, hTok, hMnt, hCount]
    exact ⟨hline, by simp only [Mac.passTwoM, hline]⟩
  · intro amap opcode mdt idx hle
    rw [List.drop_eq_nil_of_le hle]
    rfl

/-- Concrete instantiation of `errors_are_nonfatal`: a duplicate label `L`, an
unresolved operand `ZZZ`, the call `CALC X` with one argument against a
two-parameter definition, and an expansion starting past the end of a
one-entry MDT. -/
theorem errors_are_nonfatal_witness :
    ((Asm.p1Step ⟨4096, 4096, "P", [("L", "0100")], [], [], ["old"]⟩ ⟨"L", "ADD", "X"⟩).diags =
        ["old"] ++ [Asm.dupMsg ("L") 4096]
      ∧ Asm.passOneAux ⟨4096, 4096, "P", [("L", "0100")], [], [], ["old"]⟩
          (⟨"L", "ADD", "X"⟩ :: [⟨"", "SUB", "Y"⟩]) =
        Asm.passOneAux (Asm.p1Step ⟨4096, 4096, "P", [("L", "0100")], [], [], ["old"]⟩
          ⟨"L", "ADD", "X"⟩) [⟨"", "SUB", "Y"⟩])
    ∧ (Asm.instrCode [] [] ⟨"1000", "", "LDA", "ZZZ"⟩ ("00") =
        ("00" ++ "0000", [Asm.warnMsg ("ZZZ")])
      ∧ Asm.passTwoAux [] [] ⟨[], "", "", []⟩ (⟨"1000", "", "LDA", "ZZZ"⟩ :: []) =
        Asm.passTwoAux [] [] (Asm.p2Step [] [] ⟨[], "", "", []⟩ ⟨"1000", "", "LDA", "ZZZ"⟩) [])
    ∧ (Mac.m2Line [("CALC", 0, 2)] ["CALC\tMACRO\t&A,&B", "MEND"] ("\tCALC\tX") =
        [Mac.argErr (Mac.parse_line (Mac.tokenize ("\tCALC\tX"))).opcode]
      ∧ Mac.passTwoM [("CALC", 0, 2)] ["CALC\tMACRO\t&A,&B", "MEND"] []
          ("\tCALC\tX" :: ["\tEND\t"]) =
        Mac.passTwoM [("CALC", 0, 2)] ["CALC\tMACRO\t&A,&B", "MEND"]
          ([] ++ [Mac.argErr (Mac.parse_line (Mac.tokenize ("\tCALC\tX"))).opcode]) ["\tEND\t"])
    ∧ Mac.expandLoop [] ("CALC") (["A"].drop 1) = [Mac.mdtErr ("CALC")] := by
  refine ⟨?_, ?_, ?_, ?_⟩
  · exact errors_are_nonfatal.1 ⟨4096, 4096, "P", [("L", "0100")], [], [], ["old"]⟩
      ⟨"L", "ADD", "X"⟩ [⟨"", "SUB", "Y"⟩] (by decide) (by decide) (by decide) (by decide)
  · have h := errors_are_nonfatal.2.1 [] [] ⟨[], "", "", []⟩ ⟨"1000", "", "LDA", "ZZZ"⟩ []
      (("00", 3)) (by decide) (by decide) (by decide) (by decide)
    exact h
  · exact errors_are_nonfatal.2.2.1 [("CALC", 0, 2)] ["CALC\tMACRO\t&A,&B", "MEND"] []
      ("\tCALC\tX") ["\tEND\t"] ((0, 2)) (by decide) (by decide) (by decide)
  · exact errors_are_nonfatal.2.2.2 [] ("CALC") ["A"] 1 (by decide)

/-- The admission scan changes only `ready` and `vis`: clock, remaining
times, completion times and the done counter are untouched. -/
theorem rrAdmitAux_preserves (ps : List Sched.Proc) (is : List Nat) (s : Sched.RRState) :
    (Sched.rrAdmitAux ps is s).t = s.t ∧ (Sched.rrAdmitAux ps is s).rt = s.rt
    ∧ (Sched.rrAdmitAux ps is s).ct = s.ct ∧ (Sched.rrAdmitAux ps is s).done = s.done := by
  induction is generalizing s with
  | nil => exact ⟨rfl, rfl, rfl, rfl⟩
  | cons i is ih =>
    simp only [Sched.rrAdmitAux]
    by_cases h : s.vis.getD i false = false ∧ (Sched.procGet ps i).arrival ≤ s.t
    · rw [if_pos h]; exact ih _
    · rw [if_neg h]; exact ih s

/-- The admission scan appends to the ready queue exactly the not-yet-admitted
processes whose arrival time has passed, in index order, behind whatever was
queued already. -/
theorem rrAdmitAux_ready (ps : List Sched.Proc) (is : List Nat) (s : Sched.RRState)
    (hnd : is.Nodup) :
    (Sched.rrAdmitAux ps is s).ready =
      s.ready ++ is.filter
        (fun j => s.vis.getD j false = false ∧ (Sched.procGet ps j).arrival ≤ s.t) := by
  induction is generalizing s with
  | nil => simp [Sched.rrAdmitAux]
  | cons i is ih =>
    obtain ⟨hi, hnd'⟩ := List.nodup_cons.mp hnd
    simp only [Sched.rrAdmitAux]
    by_cases h : s.vis.getD i false = false ∧ (Sched.procGet ps i).arrival ≤ s.t
    · rw [if_pos h, ih _ hnd']
      rw [List.filter_cons_of_pos (by simpa using h)]
      have hfe : is.filter
            (fun j => decide ((s.vis.set i true).getD j false = false
              ∧ (Sched.procGet ps j).arrival ≤ s.t))
          = is.filter
            (fun j => decide (s.vis.getD j false = false
              ∧ (Sched.procGet ps j).arrival ≤ s.t)) := by
        apply List.filter_congr
        intro j hj
        have hne : i ≠ j := fun hc => hi (hc ▸ hj)
        simp [List.getD, List.getElem?_set_ne hne]
      rw [hfe]
      simp
    · rw [if_neg h, ih s hnd']
      rw [List.filter_cons_of_neg (by simpa using h)]

/-- After a slice that does not finish the dispatched process, the queue is:
the remaining old queue, then the processes admitted after the slice, then the
re-queued process at the very back. -/
theorem rrRun_ready (ps : List Sched.Proc) (q : Int) (s1 : Sched.RRState) (i : Nat)
    (rest : List Nat) (h2 : q < s1.rt.getD i 0) (h3 : i < s1.rt.length) :
    (Sched.rrRun ps q s1 i rest).ready =
      rest ++ Sched.newArrivals ps s1.vis (s1.t + q) ++ [i] := by
  have hexec : min q (s1.rt.getD i 0) = q := min_eq_left (le_of_lt h2)
  have hpres := rrAdmitAux_preserves ps (List.range ps.length)
    (Sched.rrAfterSlice q s1 i rest)
  have hrt : (Sched.rrAdmit ps (Sched.rrAfterSlice q s1 i rest)).rt.getD i 0
      = s1.rt.getD i 0 - q := by
    show (Sched.rrAdmitAux ps (List.range ps.length) _).rt.getD i 0 = _
    rw [hpres.2.1]
    show (Sched.rrAfterSlice q s1 i rest).rt.getD i 0 = _
    unfold Sched.rrAfterSlice
    rw [hexec]
    exact getD_set_same _ _ _ _ h3
  simp only [Sched.rrRun]
  rw [hrt, if_neg (by omega)]
  rw [show Sched.rrAdmit ps (Sched.rrAfterSlice q s1 i rest)
      = Sched.rrAdmitAux ps (List.range ps.length) (Sched.rrAfterSlice q s1 i rest) from rfl]
  rw [rrAdmitAux_ready ps (List.range ps.length) _ (List.nodup_range _)]
  show (Sched.rrAfterSlice q s1 i rest).ready ++ _ ++ [i] = _
  unfold Sched.rrAfterSlice Sched.newArrivals
  rw [hexec]

/-- Claim C2 (counterexample): on the two-process workload `psRR` with quantum
2, the pre-dispatch admission queues only process 0; process 1 arrives at time
1, during process 0's slice `[0, 2)`; after the first loop iteration the ready
queue is `[1, 0]` — the mid-slice arrival sits IN FRONT OF the re-queued
preempted process, not behind it as the claim states (that would be
`[0, 1]`). -/
theorem rr_arrival_ahead_counterexample :
    (Sched.rrAdmit Sched.psRR (Sched.rrInit Sched.psRR)).ready = [0]
    ∧ (Sched.rrIter Sched.psRR 2 (Sched.rrInit Sched.psRR)).t = 2
    ∧ (Sched.rrIter Sched.psRR 2 (Sched.rrInit Sched.psRR)).rt = [3, 3]
    ∧ (Sched.rrIter Sched.psRR 2 (Sched.rrInit Sched.psRR)).ready = [1, 0]
    ∧ ([1, 0] : List Nat) ≠ [0, 1] := by
  decide

/-- Claim C2 (amended): in Round Robin, newly arrived processes are admitted
to the ready queue before each dispatch and again immediately after the
dispatched slice runs; since the post-slice admission happens BEFORE the
preempted process is re-queued, a process that arrives during a slice is
placed in the queue AHEAD of the preempted process's re-queue entry: whenever
the admitted queue is `i :: rest` and the quantum does not exhaust `i`'s
remaining time, the queue after the iteration is `rest`, then the processes
arriving by the end of the slice, then `i` at the very back. -/
theorem rr_requeue_order (ps : List Sched.Proc) (q : Int) (s : Sched.RRState)
    (i : Nat) (rest : List Nat)
    (h1 : (Sched.rrAdmit ps s).ready = i :: rest)
    (h2 : q < (Sched.rrAdmit ps s).rt.getD i 0)
    (h3 : i < (Sched.rrAdmit ps s).rt.length) :
    (Sched.rrIter ps q s).ready =
      rest ++ Sched.newArrivals ps (Sched.rrAdmit ps s).vis ((Sched.rrAdmit ps s).t + q)
        ++ [i] := by
  simp only [Sched.rrIter]
  rw [h1]
  exact rrRun_ready ps q (Sched.rrAdmit ps s) i rest h2 h3

/-- Concrete instantiation of `rr_requeue_order` on `psRR` with quantum 2:
the queue after the first iteration is `[] ++ [1] ++ [0]`. -/
theorem rr_requeue_order_witness :
    (Sched.rrIter Sched.psRR 2 (Sched.rrInit Sched.psRR)).ready =
      [] ++ Sched.newArrivals Sched.psRR
          (Sched.rrAdmit Sched.psRR (Sched.rrInit Sched.psRR)).vis
          ((Sched.rrAdmit Sched.psRR (Sched.rrInit Sched.psRR)).t + 2)
        ++ [0] := by
  exact rr_requeue_order Sched.psRR 2 (Sched.rrInit Sched.psRR) 0 []
    (by decide) (by decide) (by decide)

/-- A FIFO step increments the fault counter exactly on a miss. -/
theorem fifoStep_faults (cap : Nat) (s : Page.FifoState) (p : Int) :
    (Page.fifoStep cap s p).faults = s.faults + (if p ∈ s.frames then 0 else 1) := by
  unfold Page.fifoStep
  by_cases h : p ∈ s.frames
  · simp [h]
  · by_cases h2 : s.frames.length < cap <;> simp [h, h2]

/-- An LRU step increments the fault counter exactly on a miss. -/
theorem lruStep_faults (cap : Nat) (s : Page.LruState) (p : Int) :
    (Page.lruStep cap s p).faults = s.faults + (if p ∈ s.frames then 0 else 1) := by
  unfold Page.lruStep
  by_cases h : p ∈ s.frames
  · simp [h]
  · by_cases h2 : s.frames.length < cap <;> simp [h, h2]

/-- An Optimal step increments the fault counter exactly on a miss. -/
theorem optStep_faults (cap : Nat) (s : Page.OptState) (p : Int) (future : List Int) :
    (Page.optStep cap s p future).faults = s.faults + (if p ∈ s.frames then 0 else 1) := by
  unfold Page.optStep
  by_cases h : p ∈ s.frames
  · simp [h]
  · by_cases h2 : s.frames.length < cap <;> simp [h, h2]

/-- The final FIFO fault counter is the initial one plus the number of
missing-at-reference-time references. -/
theorem fifoRun_faults (cap : Nat) (pages : List Int) :
    ∀ s : Page.FifoState,
      (Page.fifoRun cap s pages).faults = s.faults + Page.fifoMisses cap s pages := by
  induction pages with
  | nil => intro s; simp [Page.fifoRun, Page.fifoMisses]
  | cons p rest ih =>
    intro s
    simp only [Page.fifoRun, Page.fifoMisses]
    rw [ih, fifoStep_faults]
    by_cases h : p ∈ s.frames
    · simp [h]
    · simp [h]; omega

/-- The final LRU fault counter is the initial one plus the number of
missing-at-reference-time references. -/
theorem lruRun_faults (cap : Nat) (pages : List Int) :
    ∀ s : Page.LruState,
      (Page.lruRun cap s pages).faults = s.faults + Page.lruMisses cap s pages := by
  induction pages with
  | nil => intro s; simp [Page.lruRun, Page.lruMisses]
  | cons p rest ih =>
    intro s
    simp only [Page.lruRun, Page.lruMisses]
    rw [ih, lruStep_faults]
    by_cases h : p ∈ s.frames
    · simp [h]
    · simp [h]; omega

/-- The final Optimal fault counter is the initial one plus the number of
missing-at-reference-time references. -/
theorem optRun_faults (cap : Nat) (pages : List Int) :
    ∀ s : Page.OptState,
      (Page.optRun cap s pages).faults = s.faults + Page.optMisses cap s pages := by
  induction pages with
  | nil => intro s; simp [Page.optRun, Page.optMisses]
  | cons p rest ih =>
    intro s
    simp only [Page.optRun, Page.optMisses]
    rw [ih, optStep_faults]
    by_cases h : p ∈ s.frames
    · simp [h]
    · simp [h]; omega

/-- Claim C8: for every reference string and frame capacity, each of FIFO, LRU
and Optimal counts a page fault exactly when the referenced page is not
resident in the frame set at the moment of the reference (the per-step
conjuncts: the counter grows by 1 on a miss and by 0 on a hit), and the total
fault count at the end of the run equals the number of references that were
misses along the trace (the per-run conjuncts). -/
theorem page_fault_counting :
    (∀ (cap : Nat) (s : Page.FifoState) (p : Int),
      (Page.fifoStep cap s p).faults = s.faults + (if p ∈ s.frames then 0 else 1))
    ∧ (∀ (cap : Nat) (s : Page.LruState) (p : Int),
      (Page.lruStep cap s p).faults = s.faults + (if p ∈ s.frames then 0 else 1))
    ∧ (∀ (cap : Nat) (s : Page.OptState) (p : Int) (future : List Int),
      (Page.optStep cap s p future).faults = s.faults + (if p ∈ s.frames then 0 else 1))
    ∧ (∀ (pages : List Int) (cap : Nat),
      (Page.fifoRun cap Page.fifoInit pages).faults = Page.fifoMisses cap Page.fifoInit pages)
    ∧ (∀ (pages : List Int) (cap : Nat),
      (Page.lruRun cap Page.lruInit pages).faults = Page.lruMisses cap Page.lruInit pages)
    ∧ (∀ (pages : List Int) (cap : Nat),
      (Page.optRun cap Page.optInit pages).faults = Page.optMisses cap Page.optInit pages) :=
  ⟨fifoStep_faults, lruStep_faults, optStep_faults,
   fun pages cap => by simpa [Page.fifoInit] using fifoRun_faults cap pages Page.fifoInit,
   fun pages cap => by simpa [Page.lruInit] using lruRun_faults cap pages Page.lruInit,
   fun pages cap => by simpa [Page.optInit] using optRun_faults cap pages Page.optInit⟩


/-- Once the selection scan holds a candidate, it never drops it. -/
theorem sjfScan_isSome (ps : List Sched.Proc) (s : Sched.SjfState) (l : List Nat)
    (acc : Option Nat × Int) (h : acc.1.isSome) :
    (Sched.sjfScan ps s l acc).1.isSome := by
  induction l generalizing acc with
  | nil => exact h
  | cons i is ih =>
    simp only [Sched.sjfScan]
    by_cases hc : (Sched.procGet ps i).arrival ≤ s.t ∧ 0 < Sched.rtGet s i
        ∧ Sched.rtGet s i < acc.2
    · rw [if_pos hc]; exact ih _ rfl
    · rw [if_neg hc]; exact ih _ h

/-- A process the selection scan returns has arrived, has positive remaining
time, and is a valid index. -/
theorem sjfScan_some (ps : List Sched.Proc) (s : Sched.SjfState) (l : List Nat) :
    ∀ (acc : Option Nat × Int),
    (∀ i ∈ l, i < ps.length) →
    (∀ j, acc.1 = some j →
      (Sched.procGet ps j).arrival ≤ s.t ∧ 0 < Sched.rtGet s j ∧ j < ps.length) →
    ∀ j, (Sched.sjfScan ps s l acc).1 = some j →
      (Sched.procGet ps j).arrival ≤ s.t ∧ 0 < Sched.rtGet s j ∧ j < ps.length := by
  induction l with
  | nil => intro acc _ hacc j hj; exact hacc j hj
  | cons i is ih =>
    intro acc hmem hacc j hj
    simp only [Sched.sjfScan] at hj
    by_cases hc : (Sched.procGet ps i).arrival ≤ s.t ∧ 0 < Sched.rtGet s i
        ∧ Sched.rtGet s i < acc.2
    · rw [if_pos hc] at hj
      refine ih _ (fun x hx => hmem x (List.mem_cons_of_mem i hx)) ?_ j hj
      intro j' hj'
      simp at hj'
      exact hj' ▸ ⟨hc.1, hc.2.1, hmem i (List.mem_cons_self i is)⟩
    · rw [if_neg hc] at hj
      exact ih _ (fun x hx => hmem x (List.mem_cons_of_mem i hx)) hacc j hj

/-- When the selection scan returns nothing, no scanned process satisfies the
selection condition against the untouched `1e9` sentinel. -/
theorem sjfScan_none (ps : List Sched.Proc) (s : Sched.SjfState) (l : List Nat)
    (h : (Sched.sjfScan ps s l ((none, Sched.BIG))).1 = none) :
    ∀ i ∈ l, ¬((Sched.procGet ps i).arrival ≤ s.t ∧ 0 < Sched.rtGet s i
      ∧ Sched.rtGet s i < Sched.BIG) := by
  induction l with
  | nil => intro i hi; cases hi
  | cons i is ih =>
    intro x hx
    simp only [Sched.sjfScan] at h
    by_cases hc : (Sched.procGet ps i).arrival ≤ s.t ∧ 0 < Sched.rtGet s i
        ∧ Sched.rtGet s i < ((none : Option Nat), Sched.BIG).2
    · rw [if_pos hc] at h
      have := sjfScan_isSome ps s is ((some i, Sched.rtGet s i)) rfl
      rw [h] at this
      cases this
    · rw [if_neg hc] at h
      rcases List.mem_cons.mp hx with hxi | hxis
      · exact hxi ▸ hc
      · exact ih h x hxis

/-- One `sjf` iteration preserves the loop invariant. -/
theorem sjf_inv_step (ps : List Sched.Proc) (s : Sched.SjfState)
    (hInv : Sched.SjfInv ps s) : Sched.SjfInv ps (Sched.sjfStep ps s) := by
  obtain ⟨hle, hdone, hlen⟩ := hInv
  unfold Sched.sjfStep
  cases hsel : (Sched.sjfSelect ps s).1 with
  | none =>
    exact ⟨fun i hi => hle i hi, hdone, hlen⟩
  | some i =>
    obtain ⟨-, hrt, hin⟩ := sjfScan_some ps s (List.range ps.length) ((none, Sched.BIG))
      (fun x hx => List.mem_range.mp hx) (fun j h => by cases h) i hsel
    have hset_i : (s.rt.set i (Sched.rtGet s i - 1)).getD i 0 = Sched.rtGet s i - 1 :=
      getD_set_same _ _ _ _ (hlen ▸ hin)
    have hset_ne : ∀ j, j ≠ i → (s.rt.set i (Sched.rtGet s i - 1)).getD j 0 = s.rt.getD j 0 :=
      fun j hj => getD_set_other _ _ _ _ _ (fun hc => hj hc.symm)
    show Sched.SjfInv ps (if Sched.rtGet s i - 1 = 0 then
      (⟨s.t + 1, s.rt.set i (Sched.rtGet s i - 1), s.ct.set i (s.t + 1), s.done + 1⟩
        : Sched.SjfState)
      else ⟨s.t + 1, s.rt.set i (Sched.rtGet s i - 1), s.ct, s.done⟩)
    have hbound : ∀ j, j < ps.length →
        (s.rt.set i (Sched.rtGet s i - 1)).getD j 0 ≤ (Sched.procGet ps j).burst := by
      intro j hj
      by_cases hji : j = i
      · subst hji
        rw [hset_i]
        have := hle j hj
        omega
      · rw [hset_ne j hji]
        exact hle j hj
    by_cases h0 : Sched.rtGet s i - 1 = 0
    · rw [if_pos h0]
      refine ⟨hbound, ?_, by simpa using hlen⟩
      show s.done + 1 = ((Finset.range ps.length).filter
        (fun x => (s.rt.set i (Sched.rtGet s i - 1)).getD x 0 = 0
          ∧ 0 < (Sched.procGet ps x).burst)).card
      have hfilter : (Finset.range ps.length).filter
            (fun x => (s.rt.set i (Sched.rtGet s i - 1)).getD x 0 = 0
              ∧ 0 < (Sched.procGet ps x).burst)
          = insert i ((Finset.range ps.length).filter
            (fun x => Sched.rtGet s x = 0 ∧ 0 < (Sched.procGet ps x).burst)) := by
        ext x
        simp only [Finset.mem_filter, Finset.mem_insert, Finset.mem_range]
        constructor
        · rintro ⟨hxn, hx0, hxb⟩
          by_cases hxi : x = i
          · exact Or.inl hxi
          · refine Or.inr ⟨hxn, ?_, hxb⟩
            rwa [hset_ne x hxi] at hx0
        · rintro (hxi | ⟨hxn, hx0, hxb⟩)
          · subst hxi
            refine ⟨hin, ?_, ?_⟩
            · rw [hset_i]; exact h0
            · have := hle x hin
              omega
          · refine ⟨hxn, ?_, hxb⟩
            by_cases hxi : x = i
            · subst hxi; rw [hset_i]; exact h0
            · rw [hset_ne x hxi]; exact hx0
      rw [hfilter, Finset.card_insert_of_not_mem, hdone]
      · rfl
      · intro hmem
        rw [Finset.mem_filter] at hmem
        have : Sched.rtGet s i = 0 := hmem.2.1
        omega
    · rw [if_neg h0]
      refine ⟨hbound, ?_, by simpa using hlen⟩
      show s.done = ((Finset.range ps.length).filter
        (fun x => (s.rt.set i (Sched.rtGet s i - 1)).getD x 0 = 0
          ∧ 0 < (Sched.procGet ps x).burst)).card
      have hfilter : (Finset.range ps.length).filter
            (fun x => (s.rt.set i (Sched.rtGet s i - 1)).getD x 0 = 0
              ∧ 0 < (Sched.procGet ps x).burst)
          = (Finset.range ps.length).filter
            (fun x => Sched.rtGet s x = 0 ∧ 0 < (Sched.procGet ps x).burst) := by
        ext x
        simp only [Finset.mem_filter, Finset.mem_range]
        constructor
        · rintro ⟨hxn, hx0, hxb⟩
          refine ⟨hxn, ?_, hxb⟩
          by_cases hxi : x = i
          · subst hxi; rw [hset_i] at hx0; exact absurd hx0 h0
          · rwa [hset_ne x hxi] at hx0
        · rintro ⟨hxn, hx0, hxb⟩
          refine ⟨hxn, ?_, hxb⟩
          by_cases hxi : x = i
          · subst hxi; exact absurd hx0 (by omega)
          · rwa [hset_ne x hxi]
      rw [hfilter]
      exact hdone


/-- Initially every remaining time equals the process's burst time. -/
theorem rtGet_init (ps : List Sched.Proc) (i : Nat) (h : i < ps.length) :
    Sched.rtGet (Sched.sjfInit ps) i = (Sched.procGet ps i).burst := by
  unfold Sched.rtGet Sched.sjfInit Sched.procGet
  simp [List.getD, List.getElem?_map, List.getElem?_eq_getElem, h]

/-- The initial state satisfies the loop invariant. -/
theorem sjf_init_inv (ps : List Sched.Proc) : Sched.SjfInv ps (Sched.sjfInit ps) := by
  refine ⟨?_, ?_, by simp [Sched.sjfInit]⟩
  · intro i hi; rw [rtGet_init ps i hi]
  · show 0 = Sched.doneSpec ps (Sched.sjfInit ps)
    unfold Sched.doneSpec
    symm
    rw [Finset.card_eq_zero, Finset.filter_eq_empty_iff]
    intro x hx
    rw [rtGet_init ps x (Finset.mem_range.mp hx)]
    rintro ⟨h1, h2⟩
    omega

/-- The `done` counter never exceeds the process count. -/
theorem sjf_done_le (ps : List Sched.Proc) (s : Sched.SjfState)
    (hInv : Sched.SjfInv ps s) : s.done ≤ ps.length := by
  rw [hInv.2.1]
  calc Sched.doneSpec ps s ≤ (Finset.range ps.length).card := Finset.card_filter_le _ _
  _ = ps.length := Finset.card_range _

/-- One `sjf` iteration keeps remaining times non-negative. -/
theorem sjf_nonneg_step (ps : List Sched.Proc) (s : Sched.SjfState)
    (hInv : Sched.SjfInv ps s)
    (hnn : ∀ i, i < ps.length → 0 ≤ Sched.rtGet s i) :
    ∀ i, i < ps.length → 0 ≤ Sched.rtGet (Sched.sjfStep ps s) i := by
  unfold Sched.sjfStep
  cases hsel : (Sched.sjfSelect ps s).1 with
  | none => exact hnn
  | some i =>
    obtain ⟨-, hrt, hin⟩ := sjfScan_some ps s (List.range ps.length) ((none, Sched.BIG))
      (fun x hx => List.mem_range.mp hx) (fun j h => by cases h) i hsel
    have hset_i : (s.rt.set i (Sched.rtGet s i - 1)).getD i 0 = Sched.rtGet s i - 1 :=
      getD_set_same _ _ _ _ (hInv.2.2 ▸ hin)
    have hset_ne : ∀ j, j ≠ i → (s.rt.set i (Sched.rtGet s i - 1)).getD j 0 = s.rt.getD j 0 :=
      fun j hj => getD_set_other _ _ _ _ _ (fun hc => hj hc.symm)
    intro j hj
    show 0 ≤ Sched.rtGet (if Sched.rtGet s i - 1 = 0 then
      (⟨s.t + 1, s.rt.set i (Sched.rtGet s i - 1), s.ct.set i (s.t + 1), s.done + 1⟩
        : Sched.SjfState)
      else ⟨s.t + 1, s.rt.set i (Sched.rtGet s i - 1), s.ct, s.done⟩) j
    have hcore : 0 ≤ (s.rt.set i (Sched.rtGet s i - 1)).getD j 0 := by
      by_cases hji : j = i
      · subst hji; rw [hset_i]; omega
      · rw [hset_ne j hji]; exact hnn j hj
    by_cases h0 : Sched.rtGet s i - 1 = 0
    · rw [if_pos h0]; exact hcore
    · rw [if_neg h0]; exact hcore

/-- While not all processes are done and every burst lies in `(0, 1e9)`, each
`sjf` iteration strictly decreases the termination measure: an executing step
shrinks the total remaining work, and an idle step shrinks the distance of the
clock to the last arrival. -/
theorem sjf_measure_decreases (ps : List Sched.Proc) (s : Sched.SjfState)
    (hInv : Sched.SjfInv ps s)
    (hnn : ∀ i, i < ps.length → 0 ≤ Sched.rtGet s i)
    (hb : ∀ i, i < ps.length →
      0 < (Sched.procGet ps i).burst ∧ (Sched.procGet ps i).burst < Sched.BIG)
    (hd : s.done < ps.length) :
    Sched.sjfMeasure ps (Sched.sjfStep ps s) < Sched.sjfMeasure ps s := by
  unfold Sched.sjfStep
  cases hsel : (Sched.sjfSelect ps s).1 with
  | some i =>
    obtain ⟨-, hrt, hin⟩ := sjfScan_some ps s (List.range ps.length) ((none, Sched.BIG))
      (fun x hx => List.mem_range.mp hx) (fun j h => by cases h) i hsel
    have hset_i : (s.rt.set i (Sched.rtGet s i - 1)).getD i 0 = Sched.rtGet s i - 1 :=
      getD_set_same _ _ _ _ (hInv.2.2 ▸ hin)
    have hset_ne : ∀ j, j ≠ i → (s.rt.set i (Sched.rtGet s i - 1)).getD j 0 = s.rt.getD j 0 :=
      fun j hj => getD_set_other _ _ _ _ _ (fun hc => hj hc.symm)
    have hmemi : i ∈ Finset.range ps.length := Finset.mem_range.mpr hin
    have hsum : ∑ j ∈ Finset.range ps.length, ((s.rt.set i (Sched.rtGet s i - 1)).getD j 0).toNat
        < ∑ j ∈ Finset.range ps.length, (Sched.rtGet s j).toNat := by
      rw [← Finset.sum_erase_add _ _ hmemi,
          ← Finset.sum_erase_add _ (fun j => (Sched.rtGet s j).toNat) hmemi]
      have herase : ∑ j ∈ (Finset.range ps.length).erase i,
            ((s.rt.set i (Sched.rtGet s i - 1)).getD j 0).toNat
          = ∑ j ∈ (Finset.range ps.length).erase i, (Sched.rtGet s j).toNat :=
        Finset.sum_congr rfl (fun x hx => by
          rw [hset_ne x (Finset.ne_of_mem_erase hx)]; rfl)
      rw [herase, hset_i]
      have hlt : (Sched.rtGet s i - 1).toNat < (Sched.rtGet s i).toNat := by omega
      omega
    have hA : (Sched.maxA ps - (s.t + 1)).toNat ≤ (Sched.maxA ps - s.t).toNat := by omega
    show Sched.sjfMeasure ps (if Sched.rtGet s i - 1 = 0 then
      (⟨s.t + 1, s.rt.set i (Sched.rtGet s i - 1), s.ct.set i (s.t + 1), s.done + 1⟩
        : Sched.SjfState)
      else ⟨s.t + 1, s.rt.set i (Sched.rtGet s i - 1), s.ct, s.done⟩) < _
    have hgoal : ∀ (ct' : List Int) (done' : Nat),
        Sched.sjfMeasure ps (⟨s.t + 1, s.rt.set i (Sched.rtGet s i - 1), ct', done'⟩
          : Sched.SjfState) < Sched.sjfMeasure ps s := by
      intro ct' done'
      unfold Sched.sjfMeasure
      have : ∑ j ∈ Finset.range ps.length,
          (Sched.rtGet (⟨s.t + 1, s.rt.set i (Sched.rtGet s i - 1), ct', done'⟩
            : Sched.SjfState) j).toNat
          = ∑ j ∈ Finset.range ps.length,
            ((s.rt.set i (Sched.rtGet s i - 1)).getD j 0).toNat := rfl
      rw [this]
      have ht : (⟨s.t + 1, s.rt.set i (Sched.rtGet s i - 1), ct', done'⟩
          : Sched.SjfState).t = s.t + 1 := rfl
      rw [ht]
      omega
    by_cases h0 : Sched.rtGet s i - 1 = 0
    · rw [if_pos h0]; exact hgoal _ _
    · rw [if_neg h0]; exact hgoal _ _
  | none =>
    have hnone := sjfScan_none ps s (List.range ps.length) hsel
    have hidle : ∀ x, x < ps.length → (Sched.procGet ps x).arrival ≤ s.t →
        Sched.rtGet s x = 0 := by
      intro x hx harr
      have h1 := hnone x (List.mem_range.mpr hx)
      have h2 : Sched.rtGet s x < Sched.BIG :=
        lt_of_le_of_lt (hInv.1 x hx) (hb x hx).2
      have h3 := hnn x hx
      by_contra hne
      exact h1 ⟨harr, by omega, h2⟩
    have hex : ∃ x, x < ps.length ∧ 0 < Sched.rtGet s x := by
      by_contra hall
      push_neg at hall
      have hfull : (Finset.range ps.length).filter
          (fun x => Sched.rtGet s x = 0 ∧ 0 < (Sched.procGet ps x).burst)
          = Finset.range ps.length := by
        apply Finset.filter_true_of_mem
        intro x hx
        have hx' := Finset.mem_range.mp hx
        have := hall x hx'
        have := hnn x hx'
        exact ⟨by omega, (hb x hx').1⟩
      have : s.done = ps.length := by
        rw [hInv.2.1]
        unfold Sched.doneSpec
        rw [hfull, Finset.card_range]
      omega
    obtain ⟨x, hx, hrtx⟩ := hex
    have harr : s.t < (Sched.procGet ps x).arrival := by
      by_contra hc
      have := hidle x hx (by omega)
      omega
    have hxA : (Sched.procGet ps x).arrival ≤ Sched.maxA ps := by
      have h1 : (Sched.procGet ps x).arrival ≤ (((Sched.procGet ps x).arrival).toNat : Int) :=
        Int.self_le_toNat _
      have h2 : ((Sched.procGet ps x).arrival).toNat
          ≤ ∑ i ∈ Finset.range ps.length, ((Sched.procGet ps i).arrival).toNat :=
        Finset.single_le_sum (f := fun i => ((Sched.procGet ps i).arrival).toNat)
          (fun _ _ => Nat.zero_le _) (Finset.mem_range.mpr hx)
      calc (Sched.procGet ps x).arrival
          ≤ (((Sched.procGet ps x).arrival).toNat : Int) := h1
        _ ≤ ((∑ i ∈ Finset.range ps.length, ((Sched.procGet ps i).arrival).toNat : Nat) : Int) :=
            by exact_mod_cast h2
        _ = Sched.maxA ps := rfl
    show Sched.sjfMeasure ps (⟨s.t + 1, s.rt, s.ct, s.done⟩ : Sched.SjfState)
      < Sched.sjfMeasure ps s
    unfold Sched.sjfMeasure
    have hsums : ∑ j ∈ Finset.range ps.length,
        (Sched.rtGet (⟨s.t + 1, s.rt, s.ct, s.done⟩ : Sched.SjfState) j).toNat
        = ∑ j ∈ Finset.range ps.length, (Sched.rtGet s j).toNat := rfl
    rw [hsums]
    have ht : (⟨s.t + 1, s.rt, s.ct, s.done⟩ : Sched.SjfState).t = s.t + 1 := rfl
    rw [ht]
    omega

/-- Strong induction on the measure: from any invariant-satisfying state the
`sjf` loop reaches `done = n` within some number of iterations, provided every
burst lies in `(0, 1e9)`. -/
theorem sjf_terminates_from (ps : List Sched.Proc)
    (hb : ∀ i, i < ps.length →
      0 < (Sched.procGet ps i).burst ∧ (Sched.procGet ps i).burst < Sched.BIG) :
    ∀ (m : Nat) (s : Sched.SjfState), Sched.SjfInv ps s →
      (∀ i, i < ps.length → 0 ≤ Sched.rtGet s i) →
      Sched.sjfMeasure ps s ≤ m →
      ∃ k, (Sched.sjfLoop ps k s).done = ps.length := by
  intro m
  induction m with
  | zero =>
    intro s hInv hnn hm
    by_cases hd : s.done < ps.length
    · exfalso
      have := sjf_measure_decreases ps s hInv hnn hb hd
      omega
    · exact ⟨0, le_antisymm (sjf_done_le ps s hInv) (not_lt.mp hd)⟩
  | succ m ih =>
    intro s hInv hnn hm
    by_cases hd : s.done < ps.length
    · have hdec := sjf_measure_decreases ps s hInv hnn hb hd
      obtain ⟨k, hk⟩ := ih (Sched.sjfStep ps s) (sjf_inv_step ps s hInv)
        (sjf_nonneg_step ps s hInv hnn) (by omega)
      refine ⟨k + 1, ?_⟩
      show (if s.done < ps.length then Sched.sjfLoop ps k (Sched.sjfStep ps s) else s).done
        = ps.length
      rw [if_pos hd]
      exact hk
    · exact ⟨0, le_antisymm (sjf_done_le ps s hInv) (not_lt.mp hd)⟩

/-- A process whose remaining time is zero is never selected, so its remaining
time stays zero across one iteration. -/
theorem sjf_zero_rt_step (ps : List Sched.Proc) (s : Sched.SjfState) (j : Nat)
    (hj0 : Sched.rtGet s j = 0) :
    Sched.rtGet (Sched.sjfStep ps s) j = 0 := by
  unfold Sched.sjfStep
  cases hsel : (Sched.sjfSelect ps s).1 with
  | none => exact hj0
  | some i =>
    obtain ⟨-, hrt, hin⟩ := sjfScan_some ps s (List.range ps.length) ((none, Sched.BIG))
      (fun x hx => List.mem_range.mp hx) (fun j h => by cases h) i hsel
    have hij : i ≠ j := fun hc => by rw [hc, hj0] at hrt; omega
    have hset_ne : (s.rt.set i (Sched.rtGet s i - 1)).getD j 0 = s.rt.getD j 0 :=
      getD_set_other _ _ _ _ _ hij
    show Sched.rtGet (if Sched.rtGet s i - 1 = 0 then
      (⟨s.t + 1, s.rt.set i (Sched.rtGet s i - 1), s.ct.set i (s.t + 1), s.done + 1⟩
        : Sched.SjfState)
      else ⟨s.t + 1, s.rt.set i (Sched.rtGet s i - 1), s.ct, s.done⟩) j = 0
    by_cases h0 : Sched.rtGet s i - 1 = 0
    · rw [if_pos h0]
      show (s.rt.set i (Sched.rtGet s i - 1)).getD j 0 = 0
      rw [hset_ne]; exact hj0
    · rw [if_neg h0]
      show (s.rt.set i (Sched.rtGet s i - 1)).getD j 0 = 0
      rw [hset_ne]; exact hj0

/-- With a zero-burst process present, the `done` counter never reaches the
process count: that process is never counted. -/
theorem sjf_done_lt_of_zero_burst (ps : List Sched.Proc) (s : Sched.SjfState) (j : Nat)
    (hInv : Sched.SjfInv ps s) (hj : j < ps.length)
    (hb0 : (Sched.procGet ps j).burst = 0) : s.done < ps.length := by
  have hsub : (Finset.range ps.length).filter
      (fun x => Sched.rtGet s x = 0 ∧ 0 < (Sched.procGet ps x).burst)
      ⊆ (Finset.range ps.length).erase j := by
    intro x hx
    rw [Finset.mem_filter] at hx
    rw [Finset.mem_erase]
    refine ⟨?_, hx.1⟩
    intro hc
    subst hc
    have := hx.2.2
    omega
  have hcard : Sched.doneSpec ps s ≤ ps.length - 1 := by
    calc Sched.doneSpec ps s ≤ ((Finset.range ps.length).erase j).card :=
        Finset.card_le_card hsub
    _ = ps.length - 1 := by
        rw [Finset.card_erase_of_mem (Finset.mem_range.mpr hj), Finset.card_range]
  rw [hInv.2.1]
  omega

/-- With a zero-burst process present, after ANY number of iterations its
remaining time is still zero and the loop guard `done < n` still holds: the
`while` loop never exits. -/
theorem sjf_zero_burst_stuck (ps : List Sched.Proc) (j : Nat)
    (hj : j < ps.length) (hb0 : (Sched.procGet ps j).burst = 0) :
    ∀ (k : Nat) (s : Sched.SjfState), Sched.SjfInv ps s → Sched.rtGet s j = 0 →
      Sched.rtGet (Sched.sjfLoop ps k s) j = 0
      ∧ (Sched.sjfLoop ps k s).done < ps.length := by
  intro k
  induction k with
  | zero =>
    intro s hInv hj0
    exact ⟨hj0, sjf_done_lt_of_zero_burst ps s j hInv hj hb0⟩
  | succ k ih =>
    intro s hInv hj0
    have hd : s.done < ps.length := sjf_done_lt_of_zero_burst ps s j hInv hj hb0
    show Sched.rtGet (if s.done < ps.length then Sched.sjfLoop ps k (Sched.sjfStep ps s) else s)
        j = 0
      ∧ (if s.done < ps.length then Sched.sjfLoop ps k (Sched.sjfStep ps s) else s).done
        < ps.length
    rw [if_pos hd]
    exact ih (Sched.sjfStep ps s) (sjf_inv_step ps s hInv) (sjf_zero_rt_step ps s j hj0)

/-- Claim C10 (amended): the preemptive SJF simulation terminates for every
process list whose burst times are all strictly positive AND strictly below
the selection sentinel `1e9`; and if some process has burst time zero, that
process is never selected (its remaining time stays zero) and is never marked
done, so the `while (done < n)` loop never terminates. -/
theorem sjf_termination_amended :
    (∀ ps : List Sched.Proc, (∀ p ∈ ps, 0 < p.burst ∧ p.burst < Sched.BIG) →
      ∃ k, (Sched.sjfLoop ps k (Sched.sjfInit ps)).done = ps.length)
    ∧ (∀ (ps : List Sched.Proc) (j : Nat),
      j < ps.length → (Sched.procGet ps j).burst = 0 →
      ∀ k, Sched.rtGet (Sched.sjfLoop ps k (Sched.sjfInit ps)) j = 0
        ∧ (Sched.sjfLoop ps k (Sched.sjfInit ps)).done < ps.length) := by
  constructor
  · intro ps hb
    have hb' : ∀ i, i < ps.length →
        0 < (Sched.procGet ps i).burst ∧ (Sched.procGet ps i).burst < Sched.BIG := by
      intro i hi
      have hmem : Sched.procGet ps i ∈ ps := by
        unfold Sched.procGet
        rw [List.getD_eq_getElem ps _ hi]
        exact List.getElem_mem hi
      exact hb _ hmem
    exact sjf_terminates_from ps hb' (Sched.sjfMeasure ps (Sched.sjfInit ps))
      (Sched.sjfInit ps) (sjf_init_inv ps)
      (fun i hi => by rw [rtGet_init ps i hi]; exact le_of_lt (hb' i hi).1)
      le_rfl
  · intro ps j hj hb0 k
    exact sjf_zero_burst_stuck ps j hj hb0 k (Sched.sjfInit ps) (sjf_init_inv ps)
      (by rw [rtGet_init ps j hj, hb0])


/-- On the sentinel workload `psStuck`, one iteration only advances the clock:
the process's remaining time `1e9` never beats the `1e9` sentinel, so it is
never selected. -/
theorem sjf_stuck_step (t : Int) :
    Sched.sjfStep Sched.psStuck ⟨t, [Sched.BIG], [0], 0⟩ = ⟨t + 1, [Sched.BIG], [0], 0⟩ := by
  have hsel : (Sched.sjfSelect Sched.psStuck ⟨t, [Sched.BIG], [0], 0⟩).1 = none := by
    show (Sched.sjfScan Sched.psStuck ⟨t, [Sched.BIG], [0], 0⟩
      (List.range Sched.psStuck.length) ((none, Sched.BIG))).1 = none
    rw [show List.range Sched.psStuck.length = [0] from rfl]
    simp only [Sched.sjfScan]
    rw [if_neg]
    rintro ⟨-, -, hlt⟩
    rw [show Sched.rtGet (⟨t, [Sched.BIG], [0], 0⟩ : Sched.SjfState) 0 = Sched.BIG from rfl]
      at hlt
    exact lt_irrefl _ hlt
  unfold Sched.sjfStep
  rw [hsel]

/-- On `psStuck`, any number of iterations leaves everything but the clock
unchanged. -/
theorem sjf_stuck_loop :
    ∀ (k : Nat) (t : Int),
      Sched.sjfLoop Sched.psStuck k ⟨t, [Sched.BIG], [0], 0⟩ = ⟨t + k, [Sched.BIG], [0], 0⟩ := by
  intro k
  induction k with
  | zero => intro t; simp [Sched.sjfLoop]
  | succ k ih =>
    intro t
    show (if ((⟨t, [Sched.BIG], [0], 0⟩ : Sched.SjfState)).done < Sched.psStuck.length then
        Sched.sjfLoop Sched.psStuck k (Sched.sjfStep Sched.psStuck ⟨t, [Sched.BIG], [0], 0⟩)
      else ⟨t, [Sched.BIG], [0], 0⟩) = ⟨t + (k + 1), [Sched.BIG], [0], 0⟩
    rw [if_pos (show ((⟨t, [Sched.BIG], [0], 0⟩ : Sched.SjfState)).done < Sched.psStuck.length
      by show (0 : Nat) < Sched.psStuck.length; decide), sjf_stuck_step, ih (t + 1)]
    congr 1
    omega

/-- Claim C10 (counterexample): every burst of `psStuck` is strictly positive,
yet the simulation never terminates — after any number of iterations `done` is
still 0, because the selection scan's `1e9` sentinel is not strict enough to
admit a remaining time of exactly `1e9`. -/
theorem sjf_termination_counterexample :
    (∀ p ∈ Sched.psStuck, 0 < p.burst)
    ∧ ¬(∃ k, (Sched.sjfLoop Sched.psStuck k (Sched.sjfInit Sched.psStuck)).done
        = Sched.psStuck.length) := by
  constructor
  · decide
  · rintro ⟨k, hk⟩
    rw [show Sched.sjfInit Sched.psStuck = ⟨0, [Sched.BIG], [0], 0⟩ from rfl] at hk
    rw [sjf_stuck_loop k 0] at hk
    have h0 : (0 : Nat) = Sched.psStuck.length := hk
    exact absurd h0 (by decide)

/-- Concrete instantiation of `sjf_termination_amended`: a one-process list
with burst 1 terminates, and a one-process list with burst 0 is still not done
after 3 iterations. -/
theorem sjf_termination_amended_witness :
    (∃ k, (Sched.sjfLoop [⟨1, 0, 1, 0⟩] k (Sched.sjfInit [⟨1, 0, 1, 0⟩])).done
      = ([⟨1, 0, 1, 0⟩] : List Sched.Proc).length)
    ∧ (Sched.rtGet (Sched.sjfLoop [⟨1, 0, 0, 0⟩] 3 (Sched.sjfInit [⟨1, 0, 0, 0⟩])) 0 = 0
      ∧ (Sched.sjfLoop [⟨1, 0, 0, 0⟩] 3 (Sched.sjfInit [⟨1, 0, 0, 0⟩])).done
        < ([⟨1, 0, 0, 0⟩] : List Sched.Proc).length) :=
  ⟨sjf_termination_amended.1 [⟨1, 0, 1, 0⟩] (by decide),
   sjf_termination_amended.2 [⟨1, 0, 0, 0⟩] 0 (by decide) (by decide) 3⟩
